import Mathlib

/-!
Verification development for the `sharedfileholder` backup engine.

Each Rust module that the checked properties concern is shallowly embedded
as Lean definitions, and the properties are proved (or refuted) about those
definitions.  Machine integers are modelled as `Nat` (none of the checked
code relies on wraparound), filesystem state is passed explicitly, fallible
code returns `Except`, and a Rust `panic!` / failed `assert!` is modelled
as a distinguished error value.
-/

/-- An `Except` value that is an error.  Rust `Result::is_err`. -/
def exceptIsErr {ε α : Type} : Except ε α → Bool
  | .error _ => true
  | .ok _ => false

namespace Fieldmap

/-!
Embedding of `src/fieldmap.rs` (`FieldMap2` / `InnerFieldMap`).

The Rust arena is a `slotmap::SlotMap` that is only ever inserted into, so
slot keys are dense indices: it is modelled as a `List Owner` whose indices
are the keys, together with the backing capacity.  The inner `HashMap` from
field pointers to slot keys is observed only through `insert`, `clear` and
`get`, and its `UnsafePtrKey` keys hash and compare through the pointed-to
field value, so it is modelled as a function `F → Option Nat`.
-/

/-- `InnerFieldMap<Owner, Field, Getter>`: the validity flag, the hash map
from field values to slot keys, and the field getter. -/
structure InnerFieldMap (Owner F : Type) where
  valid : Bool
  map : F → Option Nat
  getter : Owner → F

/-- `HashMap::insert` on the function model. -/
def mapInsert {F : Type} [DecidableEq F] (m : F → Option Nat) (k : F) (v : Nat) :
    F → Option Nat :=
  fun q => if q = k then some v else m q

/-- The loop body of `InnerFieldMap::rebuild`: sequentially insert
`(getter owner, key)` for each arena entry, keys counting up from `i`. -/
def buildFrom {Owner F : Type} [DecidableEq F] (g : Owner → F) (m : F → Option Nat)
    (i : Nat) : List Owner → (F → Option Nat)
  | [] => m
  | x :: xs => buildFrom g (mapInsert m (g x) i) (i + 1) xs

/-- The map contents produced by `InnerFieldMap::rebuild` on arena `data`. -/
def buildMap {Owner F : Type} [DecidableEq F] (g : Owner → F) (data : List Owner) :
    F → Option Nat :=
  buildFrom g (fun _ => none) 0 data

/-- `InnerFieldMap::invalidate`. -/
def InnerFieldMap.invalidate {Owner F : Type} (im : InnerFieldMap Owner F) :
    InnerFieldMap Owner F :=
  { im with valid := false }

/-- `InnerFieldMap::insert`. -/
def InnerFieldMap.insert {Owner F : Type} [DecidableEq F] (im : InnerFieldMap Owner F)
    (owner : Owner) (key : Nat) : InnerFieldMap Owner F :=
  { im with map := mapInsert im.map (im.getter owner) key }

/-- `InnerFieldMap::rebuild`: clear the map, mark valid, reinsert every arena
entry in iteration order. -/
def InnerFieldMap.rebuild {Owner F : Type} [DecidableEq F] (im : InnerFieldMap Owner F)
    (data : List Owner) : InnerFieldMap Owner F :=
  { im with valid := true, map := buildMap im.getter data }

/-- `InnerFieldMap::get`: rebuild first when invalid, then look up.  Returns
the result together with the (possibly rebuilt) map state. -/
def InnerFieldMap.get {Owner F : Type} [DecidableEq F] (im : InnerFieldMap Owner F)
    (k : F) (data : List Owner) : Option Nat × InnerFieldMap Owner F :=
  let im2 := if im.valid then im else im.rebuild data
  (im2.map k, im2)

/-- `InnerFieldMap::contains`. -/
def InnerFieldMap.containsOwner {Owner F : Type} [DecidableEq F] (im : InnerFieldMap Owner F)
    (owner : Owner) (data : List Owner) : Option Nat × InnerFieldMap Owner F :=
  im.get (im.getter owner) data

/-- `FieldMap2<Owner, F1, F2, G1, G2>`: the slot arena (with its backing
capacity) and the two inner field maps. -/
structure FieldMap2 (Owner F1 F2 : Type) where
  data : List Owner
  cap : Nat
  map1 : InnerFieldMap Owner F1
  map2 : InnerFieldMap Owner F2

/-- `FieldOverlapError { existing, new }`.  `existing` is the already stored
record the new record collided with. -/
structure FieldOverlapError (Owner : Type) where
  existing : Option Owner
  new : Owner

/-- Growth of the arena's backing `Vec` when full: amortized doubling with
the small-vector minimum of four slots. -/
def growCap (c : Nat) : Nat := max (2 * c) 4

/-- `FieldMap2::new`. -/
def FieldMap2.new {Owner F1 F2 : Type} (g1 : Owner → F1) (g2 : Owner → F2) :
    FieldMap2 Owner F1 F2 :=
  { data := []
    cap := 0
    map1 := { valid := false, map := fun _ => none, getter := g1 }
    map2 := { valid := false, map := fun _ => none, getter := g2 } }

/-- `FieldMap2::insert`: check both field maps for an overlapping record
(rebuilding them if invalid); on overlap fail without touching the arena.
Otherwise push into the arena; if that forced the arena to reallocate,
invalidate both maps, else insert the new entry into both. -/
def FieldMap2.insert {Owner F1 F2 : Type} [DecidableEq F1] [DecidableEq F2]
    (st : FieldMap2 Owner F1 F2) (owner : Owner) :
    Except (FieldOverlapError Owner) Unit × FieldMap2 Owner F1 F2 :=
  let r1 := st.map1.containsOwner owner st.data
  let r2 := st.map2.containsOwner owner st.data
  match r1.1.or r2.1 with
  | some key =>
      (.error { existing := st.data[key]?, new := owner },
        { st with map1 := r1.2, map2 := r2.2 })
  | none =>
      let doInval := st.cap == st.data.length
      let key := st.data.length
      let data2 := st.data ++ [owner]
      if doInval then
        (.ok (), { data := data2, cap := growCap st.cap
                   map1 := r1.2.invalidate, map2 := r2.2.invalidate })
      else
        (.ok (), { data := data2, cap := st.cap
                   map1 := r1.2.insert owner key, map2 := r2.2.insert owner key })

/-- `FieldMap2::get_k1`, returning the lookup result together with the
state with the possibly rebuilt first map. -/
def FieldMap2.get_k1 {Owner F1 F2 : Type} [DecidableEq F1]
    (st : FieldMap2 Owner F1 F2) (k : F1) : Option Owner × FieldMap2 Owner F1 F2 :=
  let r := st.map1.get k st.data
  (r.1.bind (fun key => st.data[key]?), { st with map1 := r.2 })

/-- `FieldMap2::get_k2`. -/
def FieldMap2.get_k2 {Owner F1 F2 : Type} [DecidableEq F2]
    (st : FieldMap2 Owner F1 F2) (k : F2) : Option Owner × FieldMap2 Owner F1 F2 :=
  let r := st.map2.get k st.data
  (r.1.bind (fun key => st.data[key]?), { st with map2 := r.2 })

/-- Run a sequence of inserts, keeping the state each insert returns
(an insert that fails leaves the arena untouched). -/
def FieldMap2.insertAll {Owner F1 F2 : Type} [DecidableEq F1] [DecidableEq F2]
    (st : FieldMap2 Owner F1 F2) (l : List Owner) : FieldMap2 Owner F1 F2 :=
  l.foldl (fun s x => (s.insert x).2) st

/-! Lemmas about the rebuilt map contents. -/

theorem mapInsert_self {F : Type} [DecidableEq F] (m : F → Option Nat) (k : F) (v : Nat) :
    mapInsert m k v k = some v := by
  simp [mapInsert]

theorem mapInsert_ne {F : Type} [DecidableEq F] {m : F → Option Nat} {q k : F}
    (h : q ≠ k) {v : Nat} : mapInsert m k v q = m q := by
  simp [mapInsert, h]

theorem buildFrom_of_forall_ne {Owner F : Type} [DecidableEq F] (g : Owner → F) {k : F} :
    ∀ (xs : List Owner) (m : F → Option Nat) (i : Nat),
      (∀ x ∈ xs, g x ≠ k) → buildFrom g m i xs k = m k := by
  intro xs
  induction xs with
  | nil => intro m i _; rfl
  | cons y ys ih =>
      intro m i h
      have hy : g y ≠ k := h y (List.mem_cons_self y ys)
      rw [buildFrom, ih _ _ (fun x hx => h x (List.mem_cons_of_mem y hx)),
        mapInsert_ne (Ne.symm hy)]

theorem buildFrom_getElem {Owner F : Type} [DecidableEq F] (g : Owner → F) :
    ∀ (xs : List Owner) (m : F → Option Nat) (i j : Nat) (x : Owner),
      xs.Pairwise (fun a b => g a ≠ g b) → xs[j]? = some x →
      buildFrom g m i xs (g x) = some (i + j) := by
  intro xs
  induction xs with
  | nil => intro m i j x _ hj; simp at hj
  | cons y ys ih =>
      intro m i j x hp hj
      rcases List.pairwise_cons.mp hp with ⟨hy, hys⟩
      cases j with
      | zero =>
          have hxy : y = x := by simpa using hj
          subst hxy
          have hne : ∀ a ∈ ys, g a ≠ g y := fun a ha => (hy a ha).symm
          rw [buildFrom, buildFrom_of_forall_ne g ys _ _ hne, mapInsert_self,
            Nat.add_zero]
      | succ j =>
          rw [List.getElem?_cons_succ] at hj
          rw [buildFrom, ih _ _ _ _ hys hj]
          congr 1
          omega

theorem buildFrom_append {Owner F : Type} [DecidableEq F] (g : Owner → F) (x : Owner) :
    ∀ (xs : List Owner) (m : F → Option Nat) (i : Nat),
      buildFrom g m i (xs ++ [x]) = mapInsert (buildFrom g m i xs) (g x) (i + xs.length) := by
  intro xs
  induction xs with
  | nil => intro m i; simp [buildFrom]
  | cons y ys ih =>
      intro m i
      have hlen : i + 1 + ys.length = i + (y :: ys).length := by
        simp only [List.length_cons]
        omega
      rw [List.cons_append, buildFrom, buildFrom, ih, hlen]

theorem buildMap_eq_none {Owner F : Type} [DecidableEq F] (g : Owner → F)
    {xs : List Owner} {k : F} (h : ∀ x ∈ xs, g x ≠ k) : buildMap g xs k = none := by
  rw [buildMap, buildFrom_of_forall_ne g xs _ _ h]

theorem buildMap_getElem {Owner F : Type} [DecidableEq F] (g : Owner → F)
    {xs : List Owner} {j : Nat} {x : Owner}
    (hp : xs.Pairwise (fun a b => g a ≠ g b)) (hj : xs[j]? = some x) :
    buildMap g xs (g x) = some j := by
  have := buildFrom_getElem g xs (fun _ => none) 0 j x hp hj
  rwa [Nat.zero_add] at this

theorem buildMap_some_of_mem {Owner F : Type} [DecidableEq F] (g : Owner → F)
    {xs : List Owner} {x : Owner}
    (hp : xs.Pairwise (fun a b => g a ≠ g b)) (hx : x ∈ xs) :
    ∃ j, buildMap g xs (g x) = some j ∧ xs[j]? = some x := by
  obtain ⟨j, hj⟩ := List.getElem?_of_mem hx
  exact ⟨j, buildMap_getElem g hp hj, hj⟩

theorem buildMap_append {Owner F : Type} [DecidableEq F] (g : Owner → F)
    (xs : List Owner) (x : Owner) :
    buildMap g (xs ++ [x]) = mapInsert (buildMap g xs) (g x) xs.length := by
  rw [buildMap, buildFrom_append, Nat.zero_add, buildMap]

/-! The well-formedness invariant maintained by `FieldMap2`: the stored
records are pairwise distinct on both fields, and each inner map, when its
validity flag is set, holds exactly the rebuilt contents for the arena. -/

structure WF {Owner F1 F2 : Type} [DecidableEq F1] [DecidableEq F2]
    (st : FieldMap2 Owner F1 F2) : Prop where
  d1 : st.data.Pairwise (fun a b => st.map1.getter a ≠ st.map1.getter b)
  d2 : st.data.Pairwise (fun a b => st.map2.getter a ≠ st.map2.getter b)
  v1 : st.map1.valid = true → st.map1.map = buildMap st.map1.getter st.data
  v2 : st.map2.valid = true → st.map2.map = buildMap st.map2.getter st.data

theorem InnerFieldMap.get_fst {Owner F : Type} [DecidableEq F]
    {im : InnerFieldMap Owner F} {data : List Owner}
    (hv : im.valid = true → im.map = buildMap im.getter data) (k : F) :
    (im.get k data).1 = buildMap im.getter data k := by
  rw [InnerFieldMap.get]
  cases h : im.valid with
  | true => simp [h, hv h]
  | false => simp [h, InnerFieldMap.rebuild]

theorem InnerFieldMap.get_snd {Owner F : Type} [DecidableEq F]
    {im : InnerFieldMap Owner F} {data : List Owner}
    (hv : im.valid = true → im.map = buildMap im.getter data) (k : F) :
    (im.get k data).2.valid = true ∧
      (im.get k data).2.map = buildMap im.getter data ∧
      (im.get k data).2.getter = im.getter := by
  rw [InnerFieldMap.get]
  cases h : im.valid with
  | true => simp [h, hv h]
  | false => simp [h, InnerFieldMap.rebuild]

theorem InnerFieldMap.get_getter {Owner F : Type} [DecidableEq F]
    (im : InnerFieldMap Owner F) (k : F) (data : List Owner) :
    (im.get k data).2.getter = im.getter := by
  rw [InnerFieldMap.get]
  cases h : im.valid <;> simp [h, InnerFieldMap.rebuild]

theorem FieldMap2.insert_getters {Owner F1 F2 : Type} [DecidableEq F1] [DecidableEq F2]
    (st : FieldMap2 Owner F1 F2) (x : Owner) :
    (st.insert x).2.map1.getter = st.map1.getter ∧
      (st.insert x).2.map2.getter = st.map2.getter := by
  rw [FieldMap2.insert]
  cases h : ((st.map1.containsOwner x st.data).1.or (st.map2.containsOwner x st.data).1) with
  | some key =>
      simp only [h, InnerFieldMap.containsOwner]
      exact ⟨InnerFieldMap.get_getter _ _ _, InnerFieldMap.get_getter _ _ _⟩
  | none =>
      simp only [h, InnerFieldMap.containsOwner]
      cases hc : (st.cap == st.data.length) <;>
        simp [hc, InnerFieldMap.invalidate, InnerFieldMap.insert,
          InnerFieldMap.get_getter]

/-- If a stored record shares either field value with the inserted record,
`insert` fails and leaves the arena untouched (both inner maps are merely
resynchronized). -/
theorem FieldMap2.insert_err {Owner F1 F2 : Type} [DecidableEq F1] [DecidableEq F2]
    {st : FieldMap2 Owner F1 F2} (hwf : WF st) {x y : Owner} (hy : y ∈ st.data)
    (hshare : st.map1.getter y = st.map1.getter x ∨ st.map2.getter y = st.map2.getter x) :
    exceptIsErr (st.insert x).1 = true ∧ (st.insert x).2.data = st.data ∧
      WF (st.insert x).2 := by
  have hf1 := InnerFieldMap.get_fst hwf.v1 (st.map1.getter x)
  have hf2 := InnerFieldMap.get_fst hwf.v2 (st.map2.getter x)
  have hs1 := InnerFieldMap.get_snd hwf.v1 (st.map1.getter x)
  have hs2 := InnerFieldMap.get_snd hwf.v2 (st.map2.getter x)
  have hor : ∃ j, ((st.map1.containsOwner x st.data).1.or
      (st.map2.containsOwner x st.data).1) = some j := by
    rw [InnerFieldMap.containsOwner, InnerFieldMap.containsOwner, hf1, hf2]
    rcases hshare with hsh | hsh
    · obtain ⟨j, hj, _⟩ := buildMap_some_of_mem st.map1.getter hwf.d1 hy
      rw [hsh] at hj
      rw [hj]
      exact ⟨j, rfl⟩
    · obtain ⟨j, hj, _⟩ := buildMap_some_of_mem st.map2.getter hwf.d2 hy
      rw [hsh] at hj
      rw [hj]
      cases buildMap st.map1.getter st.data (st.map1.getter x) with
      | some j1 => exact ⟨j1, rfl⟩
      | none => exact ⟨j, rfl⟩
  obtain ⟨j, hj⟩ := hor
  rw [FieldMap2.insert]
  simp only [hj]
  refine ⟨by trivial, by trivial, ?_⟩
  refine ⟨?_, ?_, ?_, ?_⟩
  · simpa [InnerFieldMap.containsOwner, InnerFieldMap.get_getter] using hwf.d1
  · simpa [InnerFieldMap.containsOwner, InnerFieldMap.get_getter] using hwf.d2
  · intro _
    simp only [InnerFieldMap.containsOwner, InnerFieldMap.get_getter]
    exact hs1.2.1
  · intro _
    simp only [InnerFieldMap.containsOwner, InnerFieldMap.get_getter]
    exact hs2.2.1

/-- If no stored record shares a field value with the inserted record,
`insert` succeeds, appends the record to the arena, and preserves the
invariant — whether or not the arena had to grow. -/
theorem FieldMap2.insert_ok {Owner F1 F2 : Type} [DecidableEq F1] [DecidableEq F2]
    {st : FieldMap2 Owner F1 F2} (hwf : WF st) {x : Owner}
    (h1 : ∀ y ∈ st.data, st.map1.getter y ≠ st.map1.getter x)
    (h2 : ∀ y ∈ st.data, st.map2.getter y ≠ st.map2.getter x) :
    (st.insert x).1 = .ok () ∧ (st.insert x).2.data = st.data ++ [x] ∧
      WF (st.insert x).2 := by
  have hf1 := InnerFieldMap.get_fst hwf.v1 (st.map1.getter x)
  have hf2 := InnerFieldMap.get_fst hwf.v2 (st.map2.getter x)
  have hs1 := InnerFieldMap.get_snd hwf.v1 (st.map1.getter x)
  have hs2 := InnerFieldMap.get_snd hwf.v2 (st.map2.getter x)
  have hn1 : buildMap st.map1.getter st.data (st.map1.getter x) = none :=
    buildMap_eq_none st.map1.getter h1
  have hn2 : buildMap st.map2.getter st.data (st.map2.getter x) = none :=
    buildMap_eq_none st.map2.getter h2
  have hor : ((st.map1.containsOwner x st.data).1.or
      (st.map2.containsOwner x st.data).1) = none := by
    rw [InnerFieldMap.containsOwner, InnerFieldMap.containsOwner, hf1, hf2, hn1, hn2]
    rfl
  have hd1 : (st.data ++ [x]).Pairwise (fun a b => st.map1.getter a ≠ st.map1.getter b) := by
    rw [List.pairwise_append]
    exact ⟨hwf.d1, List.pairwise_singleton _ _, by
      intro a ha b hb
      rw [List.mem_singleton] at hb
      subst hb
      exact h1 a ha⟩
  have hd2 : (st.data ++ [x]).Pairwise (fun a b => st.map2.getter a ≠ st.map2.getter b) := by
    rw [List.pairwise_append]
    exact ⟨hwf.d2, List.pairwise_singleton _ _, by
      intro a ha b hb
      rw [List.mem_singleton] at hb
      subst hb
      exact h2 a ha⟩
  rw [FieldMap2.insert]
  simp only [hor]
  cases hc : (st.cap == st.data.length) with
  | true =>
      simp only [hc, if_true]
      refine ⟨by trivial, by trivial, ?_⟩
      refine ⟨?_, ?_, ?_, ?_⟩
      · simpa [InnerFieldMap.containsOwner, InnerFieldMap.invalidate,
          InnerFieldMap.get_getter] using hd1
      · simpa [InnerFieldMap.containsOwner, InnerFieldMap.invalidate,
          InnerFieldMap.get_getter] using hd2
      · intro hv
        simp [InnerFieldMap.containsOwner, InnerFieldMap.invalidate] at hv
      · intro hv
        simp [InnerFieldMap.containsOwner, InnerFieldMap.invalidate] at hv
  | false =>
      simp only [hc, Bool.false_eq_true, if_false]
      refine ⟨by trivial, by trivial, ?_⟩
      refine ⟨?_, ?_, ?_, ?_⟩
      · simpa [InnerFieldMap.containsOwner, InnerFieldMap.insert,
          InnerFieldMap.get_getter] using hd1
      · simpa [InnerFieldMap.containsOwner, InnerFieldMap.insert,
          InnerFieldMap.get_getter] using hd2
      · intro _
        simp only [InnerFieldMap.containsOwner, InnerFieldMap.insert,
          InnerFieldMap.get_getter]
        rw [hs1.2.1, buildMap_append]
      · intro _
        simp only [InnerFieldMap.containsOwner, InnerFieldMap.insert,
          InnerFieldMap.get_getter]
        rw [hs2.2.1, buildMap_append]

/-- Under the invariant, `get_k1` looks up through the rebuilt map contents. -/
theorem FieldMap2.get_k1_char {Owner F1 F2 : Type} [DecidableEq F1] [DecidableEq F2]
    {st : FieldMap2 Owner F1 F2} (hwf : WF st) (k : F1) :
    (st.get_k1 k).1 = (buildMap st.map1.getter st.data k).bind (fun j => st.data[j]?) := by
  rw [FieldMap2.get_k1, InnerFieldMap.get_fst hwf.v1 k]

theorem FieldMap2.get_k2_char {Owner F1 F2 : Type} [DecidableEq F1] [DecidableEq F2]
    {st : FieldMap2 Owner F1 F2} (hwf : WF st) (k : F2) :
    (st.get_k2 k).1 = (buildMap st.map2.getter st.data k).bind (fun j => st.data[j]?) := by
  rw [FieldMap2.get_k2, InnerFieldMap.get_fst hwf.v2 k]

/-- Every stored record is found by `get_k1` under its first field value. -/
theorem FieldMap2.get_k1_mem {Owner F1 F2 : Type} [DecidableEq F1] [DecidableEq F2]
    {st : FieldMap2 Owner F1 F2} (hwf : WF st) {r : Owner} (hr : r ∈ st.data) :
    (st.get_k1 (st.map1.getter r)).1 = some r := by
  obtain ⟨j, hj, hget⟩ := buildMap_some_of_mem st.map1.getter hwf.d1 hr
  rw [FieldMap2.get_k1_char hwf, hj, Option.some_bind, hget]

theorem FieldMap2.get_k2_mem {Owner F1 F2 : Type} [DecidableEq F1] [DecidableEq F2]
    {st : FieldMap2 Owner F1 F2} (hwf : WF st) {r : Owner} (hr : r ∈ st.data) :
    (st.get_k2 (st.map2.getter r)).1 = some r := by
  obtain ⟨j, hj, hget⟩ := buildMap_some_of_mem st.map2.getter hwf.d2 hr
  rw [FieldMap2.get_k2_char hwf, hj, Option.some_bind, hget]

/-- A first-field value held by no stored record is not found. -/
theorem FieldMap2.get_k1_not_found {Owner F1 F2 : Type} [DecidableEq F1] [DecidableEq F2]
    {st : FieldMap2 Owner F1 F2} (hwf : WF st) {k : F1}
    (h : ∀ r ∈ st.data, st.map1.getter r ≠ k) : (st.get_k1 k).1 = none := by
  rw [FieldMap2.get_k1_char hwf, buildMap_eq_none st.map1.getter h, Option.none_bind]

theorem FieldMap2.get_k2_not_found {Owner F1 F2 : Type} [DecidableEq F1] [DecidableEq F2]
    {st : FieldMap2 Owner F1 F2} (hwf : WF st) {k : F2}
    (h : ∀ r ∈ st.data, st.map2.getter r ≠ k) : (st.get_k2 k).1 = none := by
  rw [FieldMap2.get_k2_char hwf, buildMap_eq_none st.map2.getter h, Option.none_bind]

/-- `insert` preserves the invariant no matter which branch is taken. -/
theorem FieldMap2.insert_wf {Owner F1 F2 : Type} [DecidableEq F1] [DecidableEq F2]
    {st : FieldMap2 Owner F1 F2} (hwf : WF st) (x : Owner) : WF (st.insert x).2 := by
  by_cases hsh : ∃ y ∈ st.data,
      st.map1.getter y = st.map1.getter x ∨ st.map2.getter y = st.map2.getter x
  · obtain ⟨y, hy, hor⟩ := hsh
    exact (FieldMap2.insert_err hwf hy hor).2.2
  · push_neg at hsh
    exact (FieldMap2.insert_ok hwf (fun y hy => (hsh y hy).1) (fun y hy => (hsh y hy).2)).2.2

theorem FieldMap2.insertAll_wf {Owner F1 F2 : Type} [DecidableEq F1] [DecidableEq F2]
    {st : FieldMap2 Owner F1 F2} (hwf : WF st) (l : List Owner) : WF (st.insertAll l) := by
  induction l generalizing st with
  | nil => exact hwf
  | cons x xs ih =>
      rw [FieldMap2.insertAll, List.foldl_cons]
      exact ih (FieldMap2.insert_wf hwf x)

theorem FieldMap2.insertAll_getters {Owner F1 F2 : Type} [DecidableEq F1] [DecidableEq F2]
    (st : FieldMap2 Owner F1 F2) (l : List Owner) :
    (st.insertAll l).map1.getter = st.map1.getter ∧
      (st.insertAll l).map2.getter = st.map2.getter := by
  induction l generalizing st with
  | nil => exact ⟨rfl, rfl⟩
  | cons x xs ih =>
      rw [FieldMap2.insertAll, List.foldl_cons]
      have h1 := FieldMap2.insert_getters st x
      have h2 := ih (st.insert x).2
      rw [FieldMap2.insertAll] at h2
      exact ⟨h2.1.trans h1.1, h2.2.trans h1.2⟩

theorem FieldMap2.new_wf {Owner F1 F2 : Type} [DecidableEq F1] [DecidableEq F2]
    (g1 : Owner → F1) (g2 : Owner → F2) : WF (FieldMap2.new g1 g2) := by
  refine ⟨List.Pairwise.nil, List.Pairwise.nil, ?_, ?_⟩ <;>
    intro h <;> simp [FieldMap2.new] at h

/-- The state produced by running a sequence of inserts against a fresh
`FieldMap2` with the two given field getters. -/
def FieldMap2.built {Owner F1 F2 : Type} [DecidableEq F1] [DecidableEq F2]
    (g1 : Owner → F1) (g2 : Owner → F2) (l : List Owner) : FieldMap2 Owner F1 F2 :=
  (FieldMap2.new g1 g2).insertAll l

theorem FieldMap2.built_wf {Owner F1 F2 : Type} [DecidableEq F1] [DecidableEq F2]
    (g1 : Owner → F1) (g2 : Owner → F2) (l : List Owner) : WF (FieldMap2.built g1 g2 l) :=
  FieldMap2.insertAll_wf (FieldMap2.new_wf g1 g2) l

theorem FieldMap2.built_getters {Owner F1 F2 : Type} [DecidableEq F1] [DecidableEq F2]
    (g1 : Owner → F1) (g2 : Owner → F2) (l : List Owner) :
    (FieldMap2.built g1 g2 l).map1.getter = g1 ∧
      (FieldMap2.built g1 g2 l).map2.getter = g2 :=
  FieldMap2.insertAll_getters (FieldMap2.new g1 g2) l

/-- Two states with the same arena, same getters and both well-formed answer
every lookup identically (the inner-map states may differ, e.g. one may be
invalidated and the other freshly rebuilt). -/
theorem FieldMap2.lookups_eq {Owner F1 F2 : Type} [DecidableEq F1] [DecidableEq F2]
    {st st2 : FieldMap2 Owner F1 F2} (hwf : WF st) (hwf2 : WF st2)
    (hdata : st2.data = st.data) (hg1 : st2.map1.getter = st.map1.getter)
    (hg2 : st2.map2.getter = st.map2.getter) :
    (∀ k, (st2.get_k1 k).1 = (st.get_k1 k).1) ∧
      (∀ k, (st2.get_k2 k).1 = (st.get_k2 k).1) := by
  constructor <;> intro k
  · rw [FieldMap2.get_k1_char hwf2, FieldMap2.get_k1_char hwf, hdata, hg1]
  · rw [FieldMap2.get_k2_char hwf2, FieldMap2.get_k2_char hwf, hdata, hg2]

/-- Getters used by the concrete witness instantiations: records are
`Nat` triples keyed on the first and on the second component. -/
def gW1 : Nat × Nat × Nat → Nat := fun s => s.1

def gW2 : Nat × Nat × Nat → Nat := fun s => s.2.1

end Fieldmap

open Fieldmap in
/-- C4: after any sequence of `FieldMap2` inserts, an insert whose record
shares either key value with a different already-stored record fails and
leaves the collection unmutated (same arena, same lookup answers), while
`get_k1`/`get_k2` find every stored record under its key value and answer
not-found for key values no stored record has — across arena-capacity
growth and index rebuilds. -/
theorem fieldmap2_uniqueness_and_lookup {Owner F1 F2 : Type}
    [DecidableEq F1] [DecidableEq F2] (g1 : Owner → F1) (g2 : Owner → F2)
    (l : List Owner) :
    (∀ x y, y ∈ (FieldMap2.built g1 g2 l).data → y ≠ x →
      (g1 y = g1 x ∨ g2 y = g2 x) →
      exceptIsErr ((FieldMap2.built g1 g2 l).insert x).1 = true ∧
      ((FieldMap2.built g1 g2 l).insert x).2.data = (FieldMap2.built g1 g2 l).data ∧
      (∀ k, (((FieldMap2.built g1 g2 l).insert x).2.get_k1 k).1 =
        ((FieldMap2.built g1 g2 l).get_k1 k).1) ∧
      (∀ k, (((FieldMap2.built g1 g2 l).insert x).2.get_k2 k).1 =
        ((FieldMap2.built g1 g2 l).get_k2 k).1)) ∧
    (∀ r ∈ (FieldMap2.built g1 g2 l).data,
      ((FieldMap2.built g1 g2 l).get_k1 (g1 r)).1 = some r ∧
      ((FieldMap2.built g1 g2 l).get_k2 (g2 r)).1 = some r) ∧
    (∀ k, (∀ r ∈ (FieldMap2.built g1 g2 l).data, g1 r ≠ k) →
      ((FieldMap2.built g1 g2 l).get_k1 k).1 = none) ∧
    (∀ k, (∀ r ∈ (FieldMap2.built g1 g2 l).data, g2 r ≠ k) →
      ((FieldMap2.built g1 g2 l).get_k2 k).1 = none) := by
  have hwf := FieldMap2.built_wf g1 g2 l
  have hg := FieldMap2.built_getters g1 g2 l
  refine ⟨?_, ?_, ?_, ?_⟩
  · intro x y hy _hne hsh
    have hsh2 : (FieldMap2.built g1 g2 l).map1.getter y =
          (FieldMap2.built g1 g2 l).map1.getter x ∨
        (FieldMap2.built g1 g2 l).map2.getter y =
          (FieldMap2.built g1 g2 l).map2.getter x := by
      rcases hsh with h | h
      · exact Or.inl (by rw [hg.1]; exact h)
      · exact Or.inr (by rw [hg.2]; exact h)
    obtain ⟨herr, hdata, hwf2⟩ := FieldMap2.insert_err hwf hy hsh2
    have hgi := FieldMap2.insert_getters (FieldMap2.built g1 g2 l) x
    have hlk := FieldMap2.lookups_eq hwf hwf2 hdata hgi.1 hgi.2
    exact ⟨herr, hdata, hlk.1, hlk.2⟩
  · intro r hr
    constructor
    · have := FieldMap2.get_k1_mem hwf hr
      rwa [hg.1] at this
    · have := FieldMap2.get_k2_mem hwf hr
      rwa [hg.2] at this
  · intro k hk
    refine FieldMap2.get_k1_not_found hwf ?_
    rwa [hg.1]
  · intro k hk
    refine FieldMap2.get_k2_not_found hwf ?_
    rwa [hg.2]

open Fieldmap in
/-- Witness for C4 at a concrete run of five inserts (which grows the arena
from capacity 0 to 4 to 8, exercising invalidation and rebuild): a
conflicting sixth insert fails, stored records are found by both keys, an
absent key is not found. -/
theorem fieldmap2_uniqueness_and_lookup_witness :
    exceptIsErr ((FieldMap2.built gW1 gW2
      [(1, 2, 3), (4, 5, 6), (7, 8, 9), (10, 11, 12), (13, 14, 15)]).insert
        (10, 99, 99)).1 = true ∧
    ((FieldMap2.built gW1 gW2
      [(1, 2, 3), (4, 5, 6), (7, 8, 9), (10, 11, 12), (13, 14, 15)]).get_k1 7).1 =
        some (7, 8, 9) ∧
    ((FieldMap2.built gW1 gW2
      [(1, 2, 3), (4, 5, 6), (7, 8, 9), (10, 11, 12), (13, 14, 15)]).get_k2 8).1 =
        some (7, 8, 9) ∧
    ((FieldMap2.built gW1 gW2
      [(1, 2, 3), (4, 5, 6), (7, 8, 9), (10, 11, 12), (13, 14, 15)]).get_k1 0).1 =
        none := by
  have h := fieldmap2_uniqueness_and_lookup gW1 gW2
    [(1, 2, 3), (4, 5, 6), (7, 8, 9), (10, 11, 12), (13, 14, 15)]
  exact ⟨(h.1 (10, 99, 99) (10, 11, 12) (by decide) (by decide) (Or.inl rfl)).1,
    (h.2.1 (7, 8, 9) (by decide)).1,
    (h.2.1 (7, 8, 9) (by decide)).2,
    h.2.2.1 0 (by decide)⟩

open Fieldmap in
/-- C5 counterexample: inserting a record identical to one already stored
(same record, so both keys collide with itself) does NOT succeed — the
insert returns a `FieldOverlapError`. -/
theorem fieldmap2_duplicate_insert_fails_cex :
    exceptIsErr ((FieldMap2.built gW1 gW2 [(1, 2, 3)]).insert (1, 2, 3)).1 = true := by
  decide

open Fieldmap in
/-- C5 (amended): inserting a record equal to one already stored fails with
a `FieldOverlapError` — `FieldMap2::insert` rejects every key collision,
including a collision of a record with itself — and the failed insert
leaves the collection unmutated. -/
theorem fieldmap2_duplicate_insert_fails {Owner F1 F2 : Type}
    [DecidableEq F1] [DecidableEq F2] (g1 : Owner → F1) (g2 : Owner → F2)
    (l : List Owner) (x : Owner) (hx : x ∈ (FieldMap2.built g1 g2 l).data) :
    exceptIsErr ((FieldMap2.built g1 g2 l).insert x).1 = true ∧
    ((FieldMap2.built g1 g2 l).insert x).2.data = (FieldMap2.built g1 g2 l).data ∧
    (∀ k, (((FieldMap2.built g1 g2 l).insert x).2.get_k1 k).1 =
      ((FieldMap2.built g1 g2 l).get_k1 k).1) ∧
    (∀ k, (((FieldMap2.built g1 g2 l).insert x).2.get_k2 k).1 =
      ((FieldMap2.built g1 g2 l).get_k2 k).1) := by
  have hwf := FieldMap2.built_wf g1 g2 l
  obtain ⟨herr, hdata, hwf2⟩ := FieldMap2.insert_err hwf hx (Or.inl rfl)
  have hgi := FieldMap2.insert_getters (FieldMap2.built g1 g2 l) x
  have hlk := FieldMap2.lookups_eq hwf hwf2 hdata hgi.1 hgi.2
  exact ⟨herr, hdata, hlk.1, hlk.2⟩

namespace Util

/-!
Embedding of `src/util.rs`: the `Hash` newtype around `blake3::Hash` and its
hex serialization.  A digest is 32 raw bytes; `to_hex` produces the 64
lowercase hex characters, and deserialization parses a hex string back
(accepting either case, rejecting non-hex characters and wrong lengths, as
`blake3::Hash::from_str` does).  Paths are modelled as component lists.
-/

/-- A filesystem path, as its list of components. -/
abbrev Path := List String

/-- `util::Hash`: a 32-byte blake3 digest (the byte list is the raw digest). -/
structure Hash where
  bytes : List Nat
deriving DecidableEq

/-- A digest value actually producible by blake3: 32 bytes, each below 256. -/
def Hash.wf (h : Hash) : Prop :=
  h.bytes.length = 32 ∧ ∀ b ∈ h.bytes, b < 256

instance (h : Hash) : Decidable h.wf :=
  inferInstanceAs (Decidable (h.bytes.length = 32 ∧ ∀ b ∈ h.bytes, b < 256))

/-- The hex character for a value below 16: `blake3::Hash::to_hex` emits
lowercase hex, which is exactly `Nat.digitChar` on values below 16. -/
def hexDigitChar (n : Nat) : Char := Nat.digitChar n

/-- The two hex characters of one byte, high nibble first. -/
def encodeByte (b : Nat) : List Char := [hexDigitChar (b / 16), hexDigitChar (b % 16)]

/-- `to_hex`: the 64-character lowercase hex encoding of a digest. -/
def Hash.toHexChars (h : Hash) : List Char := h.bytes.flatMap encodeByte

/-- The numeric value of one hex character (either case), if it is one. -/
def hexDigitVal (c : Char) : Option Nat :=
  if c = '0' then some 0 else if c = '1' then some 1
  else if c = '2' then some 2 else if c = '3' then some 3
  else if c = '4' then some 4 else if c = '5' then some 5
  else if c = '6' then some 6 else if c = '7' then some 7
  else if c = '8' then some 8 else if c = '9' then some 9
  else if c = 'a' ∨ c = 'A' then some 10 else if c = 'b' ∨ c = 'B' then some 11
  else if c = 'c' ∨ c = 'C' then some 12 else if c = 'd' ∨ c = 'D' then some 13
  else if c = 'e' ∨ c = 'E' then some 14 else if c = 'f' ∨ c = 'F' then some 15
  else none

/-- Parse pairs of hex characters into bytes; fails on a non-hex character
or an odd-length input. -/
def parseHexBytes : List Char → Option (List Nat)
  | [] => some []
  | [_] => none
  | c1 :: c2 :: rest => do
      let hi ← hexDigitVal c1
      let lo ← hexDigitVal c2
      let tl ← parseHexBytes rest
      pure ((hi * 16 + lo) :: tl)

/-- `blake3::Hash::from_str` (via the serde visitor in `util.rs`): parse a
hex string, requiring exactly 32 bytes. -/
def Hash.fromHexChars (s : List Char) : Option Hash :=
  match parseHexBytes s with
  | some bs => if bs.length = 32 then some ⟨bs⟩ else none
  | none => none

theorem hexDigitVal_hexDigitChar : ∀ n, n < 16 → hexDigitVal (hexDigitChar n) = some n := by
  decide

theorem parseHexBytes_encode {bs : List Nat} (h : ∀ b ∈ bs, b < 256) :
    parseHexBytes (bs.flatMap encodeByte) = some bs := by
  induction bs with
  | nil => rfl
  | cons b tl ih =>
      have hb : b < 256 := h b (List.mem_cons_self b tl)
      have hhi : b / 16 < 16 := by omega
      have hlo : b % 16 < 16 := by omega
      have hval : b / 16 * 16 + b % 16 = b := by omega
      rw [List.flatMap_cons]
      show parseHexBytes (hexDigitChar (b / 16) :: hexDigitChar (b % 16) ::
        tl.flatMap encodeByte) = some (b :: tl)
      rw [parseHexBytes, hexDigitVal_hexDigitChar _ hhi, hexDigitVal_hexDigitChar _ hlo,
        ih (fun x hx => h x (List.mem_cons_of_mem b hx))]
      simp [hval]

/-- Hex round-trip for well-formed digests. -/
theorem Hash.fromHexChars_toHexChars {h : Hash} (hwf : h.wf) :
    Hash.fromHexChars h.toHexChars = some h := by
  rw [Hash.fromHexChars, Hash.toHexChars, parseHexBytes_encode hwf.2]
  simp [hwf.1]

end Util

namespace VaultStorage

/-!
Embedding of `src/vault/storage.rs` (`Storage`).

The filesystem is explicit state: a list of (path, content) pairs for
regular files plus the set of existing directories.  File contents are
opaque `Nat` identifiers — `fs::copy` copies a content value.  `Storage`
itself is just the `data` directory path derived from the vault directory.
-/

open Util

/-- Filesystem state for the storage model. -/
structure FS where
  files : List (Path × Nat)
  dirs : List Path
deriving DecidableEq

/-- Content of the file at a path, if a file exists there. -/
def FS.lookup (fs : FS) (p : Path) : Option Nat :=
  (fs.files.find? (fun e => e.1 = p)).map (fun e => e.2)

/-- How many file entries sit at a path (a real filesystem can hold at most
one; the model can count). -/
def FS.countAt (fs : FS) (p : Path) : Nat :=
  (fs.files.filter (fun e => e.1 = p)).length

/-- `Storage::new`: the data directory under the vault directory. -/
def dataDir (vaultDir : Path) : Path := vaultDir ++ ["data"]

/-- `Storage::path_of`: shard directory from the first two hex characters,
filename the full 64-character hex string. -/
def pathOf (vaultDir : Path) (h : Hash) : Path :=
  dataDir vaultDir ++ [String.mk (h.toHexChars.take 2), String.mk h.toHexChars]

/-- Errors `Storage::insert_file` can surface. -/
inductive StorageErr where
  | copyFailed
deriving DecidableEq

/-- `Storage::insert_file`: if a file already exists at the hash-derived
path, succeed immediately; otherwise create the missing shard directory and
copy the source bytes over.  The returned `Bool` reports whether a byte
copy was performed. -/
def insertFile (vaultDir : Path) (fs : FS) (source : Path) (h : Hash) :
    Except StorageErr (FS × Bool) :=
  let dest := pathOf vaultDir h
  if (fs.lookup dest).isSome then
    .ok (fs, false)
  else
    let dir := dest.dropLast
    let fs1 : FS := if dir ∈ fs.dirs then fs else { fs with dirs := dir :: fs.dirs }
    match fs.lookup source with
    | none => .error .copyFailed
    | some content => .ok ({ fs1 with files := (dest, content) :: fs1.files }, true)

/-- An `FS` with no file at a path holds zero entries there. -/
theorem FS.countAt_eq_zero {fs : FS} {p : Path} (h : fs.lookup p = none) :
    fs.countAt p = 0 := by
  rw [FS.lookup] at h
  have hfind : fs.files.find? (fun e => e.1 = p) = none := by
    cases hf : fs.files.find? (fun e => e.1 = p) with
    | none => rfl
    | some e => rw [hf] at h; simp at h
  rw [List.find?_eq_none] at hfind
  rw [FS.countAt, List.length_eq_zero]
  rw [List.filter_eq_nil_iff]
  exact hfind

end VaultStorage

open VaultStorage Util in
/-- C3: `Storage::insert_file` is idempotent: when a file already exists at
the hash-derived path it succeeds without copying and without changing the
filesystem; and when the path is free, a first insert copies the source
bytes there, after which exactly one file sits at that path and a repeated
insert of the same (source, hash) pair succeeds, copies nothing and changes
nothing. -/
theorem storage_insert_file_idempotent (vaultDir : Path) (fs : FS) (source : Path)
    (h : Hash) :
    ((fs.lookup (pathOf vaultDir h)).isSome = true →
      insertFile vaultDir fs source h = .ok (fs, false)) ∧
    (fs.lookup (pathOf vaultDir h) = none →
      ∀ fs2 b, insertFile vaultDir fs source h = .ok (fs2, b) →
        b = true ∧ fs2.countAt (pathOf vaultDir h) = 1 ∧
          insertFile vaultDir fs2 source h = .ok (fs2, false)) := by
  constructor
  · intro hsome
    rw [insertFile]
    simp only [hsome, if_true]
  · intro hnone fs2 b hins
    rw [insertFile] at hins
    simp only [hnone, Option.isSome_none, Bool.false_eq_true, if_false] at hins
    cases hsrc : fs.lookup source with
    | none => rw [hsrc] at hins; exact absurd hins (by simp)
    | some content =>
        rw [hsrc] at hins
        rw [Except.ok.injEq, Prod.mk.injEq] at hins
        obtain ⟨hfs2, hb⟩ := hins
        subst hfs2
        subst hb
        have hfiles : (if (pathOf vaultDir h).dropLast ∈ fs.dirs then fs
            else { fs with dirs := (pathOf vaultDir h).dropLast :: fs.dirs }).files
              = fs.files := by
          split <;> rfl
        refine ⟨rfl, ?_, ?_⟩
        · rw [FS.countAt]
          simp only [hfiles, List.filter_cons]
          have hz := FS.countAt_eq_zero hnone
          rw [FS.countAt] at hz
          simp [hz]
        · rw [insertFile]
          have hlk : (FS.lookup
              { files := (pathOf vaultDir h, content) ::
                  (if (pathOf vaultDir h).dropLast ∈ fs.dirs then fs
                    else { fs with dirs := (pathOf vaultDir h).dropLast :: fs.dirs }).files
                dirs := (if (pathOf vaultDir h).dropLast ∈ fs.dirs then fs
                  else { fs with dirs := (pathOf vaultDir h).dropLast :: fs.dirs }).dirs }
              (pathOf vaultDir h)).isSome = true := by
            rw [FS.lookup, List.find?_cons_of_pos _ (by simp)]
            rfl
          simp only [hlk, if_true]

/-- Concrete inputs for the C3 witness. -/
def vdW : Util.Path := ["v"]

def hashW : Util.Hash := ⟨List.replicate 32 0⟩

def fs0W : VaultStorage.FS := { files := [(["srcfile"], 7)], dirs := [] }

open VaultStorage in
/-- The filesystem after the first insert of the C3 witness. -/
def fs1W : VaultStorage.FS :=
  { files := [(pathOf vdW hashW, 7), (["srcfile"], 7)]
    dirs := [(pathOf vdW hashW).dropLast] }

open VaultStorage Util in
/-- Witness for C3: a concrete first insert copies, leaves one stored file
at the hash path, and a repeated insert is a no-op reporting no copy. -/
theorem storage_insert_file_idempotent_witness :
    fs0W.lookup (pathOf vdW hashW) = none ∧
    (true = true ∧ fs1W.countAt (pathOf vdW hashW) = 1 ∧
      insertFile vdW fs1W ["srcfile"] hashW = .ok (fs1W, false)) :=
  ⟨by decide, (storage_insert_file_idempotent vdW fs0W ["srcfile"] hashW).2
    (by decide) fs1W true (by rfl)⟩

open Fieldmap in
/-- Witness for the amended C5 at a concrete two-record collection. -/
theorem fieldmap2_duplicate_insert_fails_witness :
    exceptIsErr ((FieldMap2.built gW1 gW2 [(1, 2, 3), (4, 5, 6)]).insert (1, 2, 3)).1
        = true ∧
    ((FieldMap2.built gW1 gW2 [(1, 2, 3), (4, 5, 6)]).insert (1, 2, 3)).2.data =
      (FieldMap2.built gW1 gW2 [(1, 2, 3), (4, 5, 6)]).data := by
  have h := fieldmap2_duplicate_insert_fails gW1 gW2 [(1, 2, 3), (4, 5, 6)] (1, 2, 3)
    (by decide)
  exact ⟨h.1, h.2.1⟩

namespace VaultDb

/-!
Embedding of `src/vault/database.rs` and `src/vault/backup.rs`: the current
revision's `Database`, `Backup`, `BackupBuilder` and the commit of a
builder.  The `ClonedFieldMap` container comes from the external `fieldmap`
crate, whose sources are not part of this repository; it is modelled from
the spec below.
-/

open Util

/-- `util::MTime`: seconds and nanoseconds since the epoch. -/
structure MTime where
  sec : Nat
  nano : Nat
deriving DecidableEq

/-- Modelled from the spec: the `fieldmap` crate's `ClonedFieldMap<R, K>`
(not under this repository's sources).  Per the spec the database uses it as
"a table, shared across all snapshots in a Vault, mapping content hash →
size": a keyed record collection where `get` finds the record with a given
key, and `insert` replaces the record holding the new record's key —
returning the previous record — or appends when the key is new.  Records
are kept in a sequence (the crate serializes its record list). -/
structure ClonedFieldMap (R : Type) where
  data : List R
deriving DecidableEq

/-- `ClonedFieldMap::get` through a key getter. -/
def ClonedFieldMap.getBy {R K : Type} [DecidableEq K] (g : R → K)
    (m : ClonedFieldMap R) (k : K) : Option R :=
  m.data.find? (fun r => g r = k)

/-- `ClonedFieldMap::insert` through a key getter: replace-or-append,
returning any previous record with the same key. -/
def ClonedFieldMap.insertBy {R K : Type} [DecidableEq K] (g : R → K)
    (m : ClonedFieldMap R) (r : R) : Option R × ClonedFieldMap R :=
  match m.data.find? (fun x => g x = g r) with
  | some prev => (some prev, ⟨m.data.map (fun x => if g x = g r then r else x)⟩)
  | none => (none, ⟨m.data ++ [r]⟩)

/-- `database::DataBlock`: per-content-hash metadata. -/
structure DataBlock where
  hash : Hash
  apparent_size : Nat
deriving DecidableEq

/-- The `DataBlocks` key getter (`|datablock| &datablock.hash`). -/
def DataBlock.key (d : DataBlock) : Hash := d.hash

/-- `backup::BackupFile`: one file entry of a snapshot. -/
structure BackupFile where
  ino : Nat
  path : Path
  hash : Hash
  mtime : MTime
deriving DecidableEq

/-- The `BackupFiles` key getter (`BackupFile::ino`). -/
def BackupFile.key (f : BackupFile) : Nat := f.ino

/-- `backup::Backup`: files keyed by inode, directory set, symlink map. -/
structure Backup where
  files : ClonedFieldMap BackupFile
  directories : List Path
  symlinks : List (Path × Path)
deriving DecidableEq

/-- `backup::NewBackupFile`: a file queued for ingestion. -/
structure NewBackupFile where
  source : Path
  bkup_path : Path
  ino : Nat
  hash : Hash
  mtime : MTime
  apparent_size : Nat
deriving DecidableEq

/-- `backup::BackupBuilder`. -/
structure BackupBuilder where
  inner : Backup
  new_files : List NewBackupFile
deriving DecidableEq

/-- `database::Database`: the name → snapshot map (a `BTreeMap`) and the
shared content-metadata table. -/
structure Database where
  backups : List (String × Backup)
  data_blocks : ClonedFieldMap DataBlock
deriving DecidableEq

/-- `BTreeMap::get` on the name → snapshot list. -/
def lookupBackup (bs : List (String × Backup)) (name : String) : Option Backup :=
  (bs.find? (fun e => e.1 = name)).map (fun e => e.2)

/-- `BTreeMap::insert` on the name → snapshot list: replace the entry with
the same name, or add one. -/
def insertBackup (bs : List (String × Backup)) (name : String) (b : Backup) :
    List (String × Backup) :=
  if (bs.find? (fun e => e.1 = name)).isSome then
    bs.map (fun e => if e.1 = name then (name, b) else e)
  else
    bs ++ [(name, b)]

/-- The loop of `Database::insert_backup_builder`: insert each new file's
`DataBlock` into the shared table; an inserted hash whose previous record
disagrees on size fails the `assert_eq!` — a panic, modelled as an error. -/
def mergeBlocks (blocks : ClonedFieldMap DataBlock) :
    List NewBackupFile → Except String (ClonedFieldMap DataBlock)
  | [] => .ok blocks
  | f :: rest =>
      let r := blocks.insertBy DataBlock.key ⟨f.hash, f.apparent_size⟩
      match r.1 with
      | some prev =>
          if f.apparent_size = prev.apparent_size then mergeBlocks r.2 rest
          else .error "two different sized data blocks with the same hash"
      | none => mergeBlocks r.2 rest

/-- `Database::insert_backup_builder`: merge the builder's new content
metadata into the shared table (panicking on a size mismatch), then replace
any snapshot of the same name with the builder's finished backup. -/
def Database.insert_backup_builder (db : Database) (name : String)
    (bb : BackupBuilder) : Except String Database :=
  match mergeBlocks db.data_blocks bb.new_files with
  | .error e => .error e
  | .ok blocks =>
      .ok { backups := insertBackup db.backups name bb.inner, data_blocks := blocks }

end VaultDb

namespace VaultDb

theorem map_id_of_forall {α : Type} {f : α → α} :
    ∀ l : List α, (∀ x ∈ l, f x = x) → l.map f = l := by
  intro l
  induction l with
  | nil => intro _; rfl
  | cons y ys ih =>
      intro h
      rw [List.map_cons, h y (List.mem_cons_self y ys),
        ih (fun x hx => h x (List.mem_cons_of_mem y hx))]

/-- Replacing the record that holds key `g r` makes `r` the record found
under that key. -/
theorem find?_replace_self {R K : Type} [DecidableEq K] (g : R → K) (r : R) :
    ∀ (data : List R) (prev : R),
      data.find? (fun x => g x = g r) = some prev →
      (data.map (fun x => if g x = g r then r else x)).find? (fun x => g x = g r)
        = some r := by
  intro data
  induction data with
  | nil => intro prev h; simp at h
  | cons y ys ih =>
      intro prev h
      by_cases hy : g y = g r
      · rw [List.map_cons, if_pos hy, List.find?_cons_of_pos _ (by simp)]
      · rw [List.find?_cons_of_neg _ (by simp [hy])] at h
        rw [List.map_cons, if_neg hy, List.find?_cons_of_neg _ (by simp [hy])]
        exact ih prev h

/-- Replacing the record at key `g r` does not change what other keys find. -/
theorem find?_replace_other {R K : Type} [DecidableEq K] (g : R → K) (r : R) {k : K}
    (hk : k ≠ g r) :
    ∀ data : List R,
      (data.map (fun x => if g x = g r then r else x)).find? (fun x => g x = k)
        = data.find? (fun x => g x = k) := by
  intro data
  induction data with
  | nil => rfl
  | cons y ys ih =>
      by_cases hy : g y = g r
      · have hyk : ¬ g y = k := by rw [hy]; exact fun hc => hk hc.symm
        rw [List.map_cons, if_pos hy,
          List.find?_cons_of_neg _ (by simp [Ne.symm hk]),
          List.find?_cons_of_neg _ (by simp [hyk])]
        exact ih
      · rw [List.map_cons, if_neg hy]
        by_cases hyk : g y = k
        · rw [List.find?_cons_of_pos _ (by simp [hyk]),
            List.find?_cons_of_pos _ (by simp [hyk])]
        · rw [List.find?_cons_of_neg _ (by simp [hyk]),
            List.find?_cons_of_neg _ (by simp [hyk])]
          exact ih

/-- With pairwise-distinct keys, any member holding the searched key is the
record `find?` returns. -/
theorem find?_unique {R K : Type} [DecidableEq K] (g : R → K) {k : K} :
    ∀ (data : List R) (v x : R),
      data.Pairwise (fun a b => g a ≠ g b) →
      data.find? (fun e => g e = k) = some v →
      x ∈ data → g x = k → x = v := by
  intro data
  induction data with
  | nil => intro v x _ _ hx _; simp at hx
  | cons y ys ih =>
      intro v x hp hfind hx hgx
      rcases List.pairwise_cons.mp hp with ⟨hy, hys⟩
      by_cases hyk : g y = k
      · rw [List.find?_cons_of_pos _ (by simp [hyk])] at hfind
        have hv : y = v := by simpa using hfind
        subst hv
        rcases List.mem_cons.mp hx with rfl | hx2
        · rfl
        · exact absurd (hgx.trans hyk.symm) (hy x hx2).symm
      · rw [List.find?_cons_of_neg _ (by simp [hyk])] at hfind
        rcases List.mem_cons.mp hx with rfl | hx2
        · exact absurd hgx hyk
        · exact ih v x hys hfind hx2 hgx

theorem insertBy_fst {R K : Type} [DecidableEq K] (g : R → K)
    (m : ClonedFieldMap R) (r : R) :
    (m.insertBy g r).1 = m.getBy g (g r) := by
  rw [ClonedFieldMap.insertBy, ClonedFieldMap.getBy]
  cases m.data.find? (fun x => g x = g r) <;> rfl

/-- After an insert, the inserted record is found under its key. -/
theorem getBy_insertBy_self {R K : Type} [DecidableEq K] (g : R → K)
    (m : ClonedFieldMap R) (r : R) :
    (m.insertBy g r).2.getBy g (g r) = some r := by
  rw [ClonedFieldMap.insertBy]
  cases hf : m.data.find? (fun x => g x = g r) with
  | some prev =>
      simpa [ClonedFieldMap.getBy] using find?_replace_self g r m.data prev hf
  | none =>
      rw [ClonedFieldMap.getBy]
      show (m.data ++ [r]).find? (fun x => g x = g r) = some r
      rw [List.find?_append, hf]
      simp

/-- An insert does not change what other keys find. -/
theorem getBy_insertBy_other {R K : Type} [DecidableEq K] (g : R → K)
    (m : ClonedFieldMap R) (r : R) (k : K) (hk : k ≠ g r) :
    (m.insertBy g r).2.getBy g k = m.getBy g k := by
  rw [ClonedFieldMap.insertBy]
  cases hf : m.data.find? (fun x => g x = g r) with
  | some prev =>
      simpa [ClonedFieldMap.getBy] using find?_replace_other g r hk m.data
  | none =>
      rw [ClonedFieldMap.getBy, ClonedFieldMap.getBy]
      show (m.data ++ [r]).find? (fun x => g x = k) = _
      rw [List.find?_append]
      have : List.find? (fun x => g x = k) [r] = none := by simp [Ne.symm hk]
      rw [this, Option.or_none]

end VaultDb

namespace VaultDb

theorem DataBlock.key_mk (h : Util.Hash) (s : Nat) : DataBlock.key ⟨h, s⟩ = h := rfl

/-- A successful merge never changes the record under a hash that already
holds `⟨h, s⟩`. -/
theorem mergeBlocks_pres :
    ∀ (l : List NewBackupFile) (blocks blocks2 : ClonedFieldMap DataBlock)
      (h : Util.Hash) (s : Nat),
      mergeBlocks blocks l = .ok blocks2 →
      blocks.getBy DataBlock.key h = some ⟨h, s⟩ →
      blocks2.getBy DataBlock.key h = some ⟨h, s⟩ := by
  intro l
  induction l with
  | nil =>
      intro blocks blocks2 h s hm hg
      rw [mergeBlocks, Except.ok.injEq] at hm
      rwa [← hm]
  | cons f rest ih =>
      intro blocks blocks2 h s hm hg
      simp only [mergeBlocks] at hm
      have hfst := insertBy_fst DataBlock.key blocks
        (⟨f.hash, f.apparent_size⟩ : DataBlock)
      rw [DataBlock.key_mk] at hfst
      cases hp : (blocks.insertBy DataBlock.key
          (⟨f.hash, f.apparent_size⟩ : DataBlock)).1 with
      | some prev =>
          simp only [hp] at hm
          have hgp : blocks.getBy DataBlock.key f.hash = some prev := hfst.symm.trans hp
          by_cases hsz : f.apparent_size = prev.apparent_size
          · rw [if_pos hsz] at hm
            by_cases hh : f.hash = h
            · subst hh
              have hprev : prev = ⟨f.hash, s⟩ := by
                rw [hgp] at hg
                exact Option.some_inj.mp hg
              have hself := getBy_insertBy_self DataBlock.key blocks
                (⟨f.hash, f.apparent_size⟩ : DataBlock)
              rw [DataBlock.key_mk] at hself
              have hsz2 : f.apparent_size = s := by rw [hprev] at hsz; exact hsz
              have hself2 : (blocks.insertBy DataBlock.key
                  (⟨f.hash, f.apparent_size⟩ : DataBlock)).2.getBy DataBlock.key f.hash
                    = some ⟨f.hash, s⟩ := by
                rw [← hsz2]
                exact hself
              exact ih _ _ _ _ hm hself2
            · have hoth := getBy_insertBy_other DataBlock.key blocks
                (⟨f.hash, f.apparent_size⟩ : DataBlock) h
                (by rw [DataBlock.key_mk]; exact fun hc => hh hc.symm)
              exact ih _ _ _ _ hm (hoth.trans hg)
          · rw [if_neg hsz] at hm
            exact absurd hm (by simp)
      | none =>
          simp only [hp] at hm
          have hgp : blocks.getBy DataBlock.key f.hash = none := hfst.symm.trans hp
          by_cases hh : f.hash = h
          · subst hh
            rw [hgp] at hg
            exact absurd hg (by simp)
          · have hoth := getBy_insertBy_other DataBlock.key blocks
              (⟨f.hash, f.apparent_size⟩ : DataBlock) h
              (by rw [DataBlock.key_mk]; exact fun hc => hh hc.symm)
            exact ih _ _ _ _ hm (hoth.trans hg)

/-- After a successful merge every merged file's `(hash, size)` is the
record found under its hash. -/
theorem mergeBlocks_mem :
    ∀ (l : List NewBackupFile) (blocks blocks2 : ClonedFieldMap DataBlock)
      (f : NewBackupFile),
      mergeBlocks blocks l = .ok blocks2 → f ∈ l →
      blocks2.getBy DataBlock.key f.hash = some ⟨f.hash, f.apparent_size⟩ := by
  intro l
  induction l with
  | nil => intro blocks blocks2 f _ hf; simp at hf
  | cons g rest ih =>
      intro blocks blocks2 f hm hf
      simp only [mergeBlocks] at hm
      have hself := getBy_insertBy_self DataBlock.key blocks
        (⟨g.hash, g.apparent_size⟩ : DataBlock)
      rw [DataBlock.key_mk] at hself
      cases hp : (blocks.insertBy DataBlock.key
          (⟨g.hash, g.apparent_size⟩ : DataBlock)).1 with
      | some prev =>
          simp only [hp] at hm
          by_cases hsz : g.apparent_size = prev.apparent_size
          · rw [if_pos hsz] at hm
            rcases List.mem_cons.mp hf with rfl | hf2
            · exact mergeBlocks_pres rest _ _ _ _ hm hself
            · exact ih _ _ _ hm hf2
          · rw [if_neg hsz] at hm
            exact absurd hm (by simp)
      | none =>
          simp only [hp] at hm
          rcases List.mem_cons.mp hf with rfl | hf2
          · exact mergeBlocks_pres rest _ _ _ _ hm hself
          · exact ih _ _ _ hm hf2

/-- A successful merge leaves hashes merged by no file unchanged. -/
theorem mergeBlocks_untouched :
    ∀ (l : List NewBackupFile) (blocks blocks2 : ClonedFieldMap DataBlock)
      (h : Util.Hash),
      mergeBlocks blocks l = .ok blocks2 → (∀ f ∈ l, f.hash ≠ h) →
      blocks2.getBy DataBlock.key h = blocks.getBy DataBlock.key h := by
  intro l
  induction l with
  | nil =>
      intro blocks blocks2 h hm _
      rw [mergeBlocks, Except.ok.injEq] at hm
      rw [← hm]
  | cons g rest ih =>
      intro blocks blocks2 h hm hne
      simp only [mergeBlocks] at hm
      have hoth := getBy_insertBy_other DataBlock.key blocks
        (⟨g.hash, g.apparent_size⟩ : DataBlock) h
        (by rw [DataBlock.key_mk]
            exact fun hc => hne g (List.mem_cons_self g rest) hc.symm)
      cases hp : (blocks.insertBy DataBlock.key
          (⟨g.hash, g.apparent_size⟩ : DataBlock)).1 with
      | some prev =>
          simp only [hp] at hm
          by_cases hsz : g.apparent_size = prev.apparent_size
          · rw [if_pos hsz] at hm
            exact (ih _ _ _ hm (fun f hf => hne f (List.mem_cons_of_mem g hf))).trans hoth
          · rw [if_neg hsz] at hm
            exact absurd hm (by simp)
      | none =>
          simp only [hp] at hm
          exact (ih _ _ _ hm (fun f hf => hne f (List.mem_cons_of_mem g hf))).trans hoth

/-- A file whose hash the table already records with a different size makes
the merge fail (the `assert_eq!` fires). -/
theorem mergeBlocks_mismatch :
    ∀ (l : List NewBackupFile) (blocks : ClonedFieldMap DataBlock)
      (f : NewBackupFile) (d : DataBlock),
      f ∈ l → blocks.getBy DataBlock.key f.hash = some d →
      d.apparent_size ≠ f.apparent_size →
      exceptIsErr (mergeBlocks blocks l) = true := by
  intro l
  induction l with
  | nil => intro blocks f d hf _ _; simp at hf
  | cons g rest ih =>
      intro blocks f d hf hg hne
      simp only [mergeBlocks]
      have hfst := insertBy_fst DataBlock.key blocks
        (⟨g.hash, g.apparent_size⟩ : DataBlock)
      rw [DataBlock.key_mk] at hfst
      rcases List.mem_cons.mp hf with rfl | hf2
      · simp only [hfst, hg]
        rw [if_neg (fun hc => hne hc.symm)]
        rfl
      · cases hp : (blocks.insertBy DataBlock.key
            (⟨g.hash, g.apparent_size⟩ : DataBlock)).1 with
        | some prev =>
            simp only [hp]
            have hgp : blocks.getBy DataBlock.key g.hash = some prev :=
              hfst.symm.trans hp
            by_cases hsz : g.apparent_size = prev.apparent_size
            · rw [if_pos hsz]
              by_cases hgf : g.hash = f.hash
              · have hprev : prev = d := by
                  rw [hgf] at hgp
                  rw [hgp] at hg
                  exact Option.some_inj.mp hg
                have hself := getBy_insertBy_self DataBlock.key blocks
                  (⟨g.hash, g.apparent_size⟩ : DataBlock)
                rw [DataBlock.key_mk] at hself
                have hself2 : (blocks.insertBy DataBlock.key
                    (⟨g.hash, g.apparent_size⟩ : DataBlock)).2.getBy DataBlock.key f.hash
                      = some ⟨g.hash, g.apparent_size⟩ := by
                  rw [← hgf]
                  exact hself
                refine ih _ f ⟨g.hash, g.apparent_size⟩ hf2 hself2 ?_
                intro hc
                rw [hprev] at hsz
                exact hne (hsz.symm.trans hc)
              · have hoth := getBy_insertBy_other DataBlock.key blocks
                  (⟨g.hash, g.apparent_size⟩ : DataBlock) f.hash
                  (by rw [DataBlock.key_mk]; exact fun hc => hgf hc.symm)
                exact ih _ f d hf2 (hoth.trans hg) hne
            · rw [if_neg hsz]
              rfl
        | none =>
            simp only [hp]
            have hgp : blocks.getBy DataBlock.key g.hash = none := hfst.symm.trans hp
            by_cases hgf : g.hash = f.hash
            · rw [hgf] at hgp
              rw [hgp] at hg
              exact absurd hg (by simp)
            · have hoth := getBy_insertBy_other DataBlock.key blocks
                (⟨g.hash, g.apparent_size⟩ : DataBlock) f.hash
                (by rw [DataBlock.key_mk]; exact fun hc => hgf hc.symm)
              exact ih _ f d hf2 (hoth.trans hg) hne

/-- When every merged file's `(hash, size)` already is the record under its
hash and the table's keys are distinct, the merge succeeds with the table
literally unchanged. -/
theorem mergeBlocks_id :
    ∀ (l : List NewBackupFile) (blocks : ClonedFieldMap DataBlock),
      blocks.data.Pairwise (fun a b => a.hash ≠ b.hash) →
      (∀ f ∈ l, blocks.getBy DataBlock.key f.hash = some ⟨f.hash, f.apparent_size⟩) →
      mergeBlocks blocks l = .ok blocks := by
  intro l
  induction l with
  | nil => intro blocks _ _; rfl
  | cons f rest ih =>
      intro blocks hpw hall
      have hg := hall f (List.mem_cons_self f rest)
      simp only [mergeBlocks]
      have hfst := insertBy_fst DataBlock.key blocks
        (⟨f.hash, f.apparent_size⟩ : DataBlock)
      rw [DataBlock.key_mk] at hfst
      have hsame : (blocks.insertBy DataBlock.key
          (⟨f.hash, f.apparent_size⟩ : DataBlock)).2 = blocks := by
        rw [ClonedFieldMap.insertBy]
        simp only [DataBlock.key_mk]
        rw [ClonedFieldMap.getBy] at hg
        rw [hg]
        have hdata : blocks.data.map
            (fun x => if DataBlock.key x = f.hash
              then (⟨f.hash, f.apparent_size⟩ : DataBlock) else x) = blocks.data := by
          refine map_id_of_forall blocks.data ?_
          intro x hx
          by_cases hk : DataBlock.key x = f.hash
          · have hxv := find?_unique DataBlock.key blocks.data
              (⟨f.hash, f.apparent_size⟩ : DataBlock) x
              (by simpa [DataBlock.key] using hpw) hg hx hk
            rw [if_pos hk, hxv]
          · rw [if_neg hk]
        cases blocks
        simpa using hdata
      simp only [hfst, hg]
      rw [if_pos trivial, hsame]
      exact ih blocks hpw (fun x hx => hall x (List.mem_cons_of_mem f hx))

end VaultDb

namespace VaultDb

/-- `BTreeMap::insert` then `get` at the inserted name finds the new value. -/
theorem lookupBackup_insert_self (bs : List (String × Backup)) (name : String)
    (b : Backup) : lookupBackup (insertBackup bs name b) name = some b := by
  rw [insertBackup]
  cases hf : bs.find? (fun e => e.1 = name) with
  | some e =>
      rw [if_pos (by rfl)]
      rw [lookupBackup]
      have hr := find?_replace_self Prod.fst ((name, b) : String × Backup) bs e hf
      rw [hr]
      rfl
  | none =>
      rw [if_neg (by simp)]
      rw [lookupBackup, List.find?_append, hf]
      simp

/-- `BTreeMap::insert` leaves every other name's entry unchanged. -/
theorem lookupBackup_insert_other (bs : List (String × Backup)) (name n : String)
    (b : Backup) (hn : n ≠ name) :
    lookupBackup (insertBackup bs name b) n = lookupBackup bs n := by
  rw [insertBackup]
  cases hf : bs.find? (fun e => e.1 = name) with
  | some e =>
      rw [if_pos (by rfl)]
      rw [lookupBackup, lookupBackup]
      have hr := find?_replace_other Prod.fst ((name, b) : String × Backup) hn bs
      rw [hr]
  | none =>
      rw [if_neg (by simp)]
      rw [lookupBackup, lookupBackup, List.find?_append]
      have hone : List.find? (fun e => e.1 = n) [(name, b)] = none := by
        simp [Ne.symm hn]
      rw [hone, Option.or_none]

end VaultDb

open VaultDb in
/-- C7: committing a backup builder merges each queued file's (hash, size)
into the shared content-metadata table — panicking (not a recoverable
error) when a hash already recorded has a different size, and leaving the
table literally unchanged when every queued (hash, size) pair is already
recorded — and stores the builder's finished backup under the given name,
replacing any existing snapshot of that name and no other. -/
theorem database_insert_backup_builder_spec (db : Database) (name : String)
    (bb : BackupBuilder) :
    ((∃ f ∈ bb.new_files, ∃ d, db.data_blocks.getBy DataBlock.key f.hash = some d ∧
        d.apparent_size ≠ f.apparent_size) →
      exceptIsErr (db.insert_backup_builder name bb) = true) ∧
    (∀ db2, db.insert_backup_builder name bb = .ok db2 →
      (∀ f ∈ bb.new_files, db2.data_blocks.getBy DataBlock.key f.hash =
          some ⟨f.hash, f.apparent_size⟩) ∧
      (∀ h : Util.Hash, (∀ f ∈ bb.new_files, f.hash ≠ h) →
          db2.data_blocks.getBy DataBlock.key h = db.data_blocks.getBy DataBlock.key h) ∧
      lookupBackup db2.backups name = some bb.inner ∧
      (∀ n, n ≠ name → lookupBackup db2.backups n = lookupBackup db.backups n)) ∧
    (db.data_blocks.data.Pairwise (fun a b => a.hash ≠ b.hash) →
      (∀ f ∈ bb.new_files, db.data_blocks.getBy DataBlock.key f.hash =
          some ⟨f.hash, f.apparent_size⟩) →
      db.insert_backup_builder name bb =
        .ok { backups := insertBackup db.backups name bb.inner
              data_blocks := db.data_blocks }) := by
  refine ⟨?_, ?_, ?_⟩
  · rintro ⟨f, hf, d, hd, hne⟩
    have herr := mergeBlocks_mismatch bb.new_files db.data_blocks f d hf hd hne
    rw [Database.insert_backup_builder]
    cases hm : mergeBlocks db.data_blocks bb.new_files with
    | error e => rfl
    | ok blocks =>
        rw [hm] at herr
        exact absurd herr (by simp [exceptIsErr])
  · intro db2 hok
    rw [Database.insert_backup_builder] at hok
    cases hm : mergeBlocks db.data_blocks bb.new_files with
    | error e =>
        rw [hm] at hok
        exact absurd hok (by simp)
    | ok blocks =>
        rw [hm] at hok
        rw [Except.ok.injEq] at hok
        subst hok
        refine ⟨?_, ?_, ?_, ?_⟩
        · intro f hf
          exact mergeBlocks_mem bb.new_files db.data_blocks blocks f hm hf
        · intro h hh
          exact mergeBlocks_untouched bb.new_files db.data_blocks blocks h hm hh
        · exact lookupBackup_insert_self db.backups name bb.inner
        · intro n hn
          exact lookupBackup_insert_other db.backups name n bb.inner hn
  · intro hpw hall
    rw [Database.insert_backup_builder, mergeBlocks_id bb.new_files db.data_blocks hpw hall]

/-- Concrete inputs for the C7 witness: a database already recording hash
`[1]` at size 5, and a builder queuing `[2]` at size 7. -/
def dbW : VaultDb.Database :=
  { backups := []
    data_blocks := ⟨[⟨⟨[1]⟩, 5⟩]⟩ }

def backupW : VaultDb.Backup :=
  { files := ⟨[]⟩, directories := [["d"]], symlinks := [] }

def bbW : VaultDb.BackupBuilder :=
  { inner := backupW
    new_files := [{ source := ["s"], bkup_path := ["p"], ino := 9, hash := ⟨[2]⟩
                    mtime := ⟨1, 0⟩, apparent_size := 7 }] }

/-- A builder whose single queued file collides with `dbW`'s recorded hash
`[1]` at a different size. -/
def bbBadW : VaultDb.BackupBuilder :=
  { inner := backupW
    new_files := [{ source := ["s"], bkup_path := ["p"], ino := 9, hash := ⟨[1]⟩
                    mtime := ⟨1, 0⟩, apparent_size := 6 }] }

open VaultDb in
/-- Witness for C7: the mismatching commit aborts; the clean commit records
the new (hash, size), keeps the old entry, and stores the snapshot under
its name. -/
theorem database_insert_backup_builder_spec_witness :
    exceptIsErr (dbW.insert_backup_builder "b" bbBadW) = true ∧
    (∀ db2, dbW.insert_backup_builder "s1" bbW = .ok db2 →
      lookupBackup db2.backups "s1" = some backupW) := by
  constructor
  · exact (database_insert_backup_builder_spec dbW "b" bbBadW).1
      ⟨bbBadW.new_files.head (by decide), by decide,
        ⟨⟨[1]⟩, 5⟩, by decide, by decide⟩
  · intro db2 hok
    exact ((database_insert_backup_builder_spec dbW "s1" bbW).2.1 db2 hok).2.2.1

namespace VaultDb

/-!
Serialization model for `Database::write` / `Database::load`
(`src/vault/database.rs` lines 38-50).  The database is written as one
structured document to `database.json` in the vault directory and read
back whole.  The document is modelled at the JSON value level: hashes
appear as their 64-character hex strings (the serde impls in
`src/util.rs`), every other field is carried structurally.  The JSON
text encoding itself (serde_json) and `ClonedFieldMap`'s serialization as
its record sequence are outside the repository's sources and modelled from
the spec.
-/

open Util

/-- Serialized form of a `DataBlock`. -/
structure DataBlockDoc where
  hash : List Char
  apparent_size : Nat

/-- Serialized form of a `BackupFile`. -/
structure BackupFileDoc where
  ino : Nat
  path : Path
  hash : List Char
  mtime : MTime

/-- Serialized form of a `Backup`. -/
structure BackupDoc where
  files : List BackupFileDoc
  directories : List Path
  symlinks : List (Path × Path)

/-- The whole serialized database document. -/
structure DbDoc where
  backups : List (String × BackupDoc)
  data_blocks : List DataBlockDoc

/-- The vault directory as far as the database is concerned: the
`database.json` file, absent until first written. -/
structure VaultDirState where
  databaseFile : Option DbDoc

def encodeFile (f : BackupFile) : BackupFileDoc :=
  ⟨f.ino, f.path, f.hash.toHexChars, f.mtime⟩

def decodeFile (d : BackupFileDoc) : Option BackupFile :=
  (Hash.fromHexChars d.hash).map (fun h => ⟨d.ino, d.path, h, d.mtime⟩)

def encodeBlock (b : DataBlock) : DataBlockDoc :=
  ⟨b.hash.toHexChars, b.apparent_size⟩

def decodeBlock (d : DataBlockDoc) : Option DataBlock :=
  (Hash.fromHexChars d.hash).map (fun h => ⟨h, d.apparent_size⟩)

/-- Decode each element, failing if any element fails (serde sequence
deserialization). -/
def decodeList {α β : Type} (f : α → Option β) : List α → Option (List β)
  | [] => some []
  | x :: xs => do
      let y ← f x
      let ys ← decodeList f xs
      pure (y :: ys)

def encodeBackup (b : Backup) : BackupDoc :=
  ⟨b.files.data.map encodeFile, b.directories, b.symlinks⟩

def decodeBackup (d : BackupDoc) : Option Backup :=
  (decodeList decodeFile d.files).map (fun fs => ⟨⟨fs⟩, d.directories, d.symlinks⟩)

def encodeDb (db : Database) : DbDoc :=
  ⟨db.backups.map (fun e => (e.1, encodeBackup e.2)),
    db.data_blocks.data.map encodeBlock⟩

def decodeDb (d : DbDoc) : Option Database := do
  let bs ← decodeList (fun e : String × BackupDoc =>
    (decodeBackup e.2).map (fun b => (e.1, b))) d.backups
  let blocks ← decodeList decodeBlock d.data_blocks
  pure ⟨bs, ⟨blocks⟩⟩

/-- `Database::write`: serialize the whole database into the vault
directory's database file. -/
def Database.write (db : Database) (_v : VaultDirState) : VaultDirState :=
  { databaseFile := some (encodeDb db) }

/-- `Database::load`: read and deserialize the vault directory's database
file; fails when the file is missing or malformed. -/
def Database.load (v : VaultDirState) : Option Database :=
  v.databaseFile.bind decodeDb

/-- Every hash stored in the database is an actual 32-byte digest. -/
def Database.hashesWf (db : Database) : Prop :=
  (∀ e ∈ db.backups, ∀ f ∈ e.2.files.data, f.hash.wf) ∧
    ∀ d ∈ db.data_blocks.data, d.hash.wf

theorem decodeList_encode {α β : Type} (f : α → Option β) (g : β → α) :
    ∀ l : List β, (∀ x ∈ l, f (g x) = some x) → decodeList f (l.map g) = some l := by
  intro l
  induction l with
  | nil => intro _; rfl
  | cons y ys ih =>
      intro h
      rw [List.map_cons, decodeList]
      rw [h y (List.mem_cons_self y ys), ih (fun x hx => h x (List.mem_cons_of_mem y hx))]
      rfl

theorem decodeFile_encodeFile {f : BackupFile} (h : f.hash.wf) :
    decodeFile (encodeFile f) = some f := by
  rw [encodeFile, decodeFile]
  show (Hash.fromHexChars f.hash.toHexChars).map _ = _
  rw [Hash.fromHexChars_toHexChars h]
  rfl

theorem decodeBlock_encodeBlock {b : DataBlock} (h : b.hash.wf) :
    decodeBlock (encodeBlock b) = some b := by
  rw [encodeBlock, decodeBlock]
  show (Hash.fromHexChars b.hash.toHexChars).map _ = _
  rw [Hash.fromHexChars_toHexChars h]
  rfl

theorem decodeBackup_encodeBackup {b : Backup} (h : ∀ f ∈ b.files.data, f.hash.wf) :
    decodeBackup (encodeBackup b) = some b := by
  rw [encodeBackup, decodeBackup]
  show (decodeList decodeFile (b.files.data.map encodeFile)).map _ = _
  rw [decodeList_encode decodeFile encodeFile b.files.data
    (fun f hf => decodeFile_encodeFile (h f hf))]
  show some (⟨⟨b.files.data⟩, b.directories, b.symlinks⟩ : Backup) = some b
  cases b with
  | mk files dirs links => cases files; rfl

end VaultDb

open VaultDb Util in
/-- C8: database persistence round-trips: writing a database (whose stored
hashes are real 32-byte digests) to a vault directory and loading from that
directory yields the identical database — in particular every snapshot,
looked up by name, has identical files, directories and symlinks, and the
content-metadata table is identical for every hash. -/
theorem database_write_load_roundtrip (db : Database) (v : VaultDirState)
    (hwf : db.hashesWf) : Database.load (Database.write db v) = some db := by
  rw [Database.write, Database.load]
  show decodeDb (encodeDb db) = some db
  rw [encodeDb, decodeDb]
  show (do
    let bs ← decodeList (fun e : String × BackupDoc =>
      (decodeBackup e.2).map (fun b => (e.1, b)))
        (db.backups.map (fun e => (e.1, encodeBackup e.2)))
    let blocks ← decodeList decodeBlock (db.data_blocks.data.map encodeBlock)
    pure (⟨bs, ⟨blocks⟩⟩ : Database)) = some db
  have hbs : decodeList (fun e : String × BackupDoc =>
      (decodeBackup e.2).map (fun b => (e.1, b)))
        (db.backups.map (fun e => (e.1, encodeBackup e.2))) = some db.backups := by
    refine decodeList_encode _ _ db.backups ?_
    intro e he
    show (decodeBackup (encodeBackup e.2)).map _ = _
    rw [decodeBackup_encodeBackup (hwf.1 e he)]
    rfl
  have hblocks : decodeList decodeBlock (db.data_blocks.data.map encodeBlock)
      = some db.data_blocks.data :=
    decodeList_encode decodeBlock encodeBlock db.data_blocks.data
      (fun d hd => decodeBlock_encodeBlock (hwf.2 d hd))
  rw [hbs, hblocks]
  show some (⟨db.backups, ⟨db.data_blocks.data⟩⟩ : Database) = some db
  cases db with
  | mk bs blocks => cases blocks; rfl

/-- A concrete 32-byte digest for the C8 witness. -/
def hash32W : Util.Hash := ⟨List.replicate 32 171⟩

/-- A concrete database for the C8 witness: one snapshot with one file, one
directory, one symlink, and its content-metadata entry. -/
def dbRoundW : VaultDb.Database :=
  { backups := [("s1",
      { files := ⟨[{ ino := 42, path := ["a", "f"], hash := hash32W
                     mtime := ⟨10, 4⟩ }]⟩
        directories := [["a"]]
        symlinks := [(["a", "l"], ["f"])] })]
    data_blocks := ⟨[⟨hash32W, 1⟩]⟩ }

open VaultDb in
/-- Witness for C8 at the concrete database. -/
theorem database_write_load_roundtrip_witness :
    dbRoundW.hashesWf ∧
      Database.load (Database.write dbRoundW ⟨none⟩) = some dbRoundW :=
  ⟨by constructor <;> decide,
    database_write_load_roundtrip dbRoundW ⟨none⟩ (by constructor <;> decide)⟩

namespace SubBackup

/-!
Embedding of the earlier-revision backup engine the claims pin:
`src/subcommands/backup.rs` (scan/diff and the whole backup run),
`src/database.rs` (its `Database` / `Backup` / `BackupBuilder` /
`BackupView`, with the `assert!(prev.is_none())` commit), and
`src/storage.rs` (`store_file`, which bails when the hash is already
stored).  Hashing and file copying are I/O: they are oracles passed in
(`hashFn`, `ingestOk`), and the on-disk state (database file, stored
hashes) is the explicit `World`.
-/

open Util

/-- `database::MTime` with `Ord` going through `Duration::new`, which
carries nanoseconds into seconds: comparison of total nanoseconds. -/
structure MTime where
  sec : Nat
  nano : Nat
deriving DecidableEq

def MTime.toNanos (t : MTime) : Nat := t.sec * 1000000000 + t.nano

/-- `MTime: Ord` — `a <= b`. -/
def MTime.leb (a b : MTime) : Bool := a.toNanos ≤ b.toNanos

/-- Replace-or-append association update (`BTreeMap::insert` /
`HashMap::insert` at the observable level). -/
def assocUpdate {K V : Type} [DecidableEq K] (l : List (K × V)) (k : K) (v : V) :
    List (K × V) :=
  if (l.find? (fun e => e.1 = k)).isSome then
    l.map (fun e => if e.1 = k then (k, v) else e)
  else
    l ++ [(k, v)]

/-- Association lookup (`BTreeMap::get` / `HashMap::get`). -/
def assocGet {K V : Type} [DecidableEq K] (l : List (K × V)) (k : K) : Option V :=
  (l.find? (fun e => e.1 = k)).map (fun e => e.2)

/-- `database::BackupFileMetadata`. -/
structure BackupFileMetadata where
  path : Path
  hash : Hash
deriving DecidableEq

/-- `database::DataBlockMetadata`. -/
structure DataBlockMetadata where
  mtime : MTime
deriving DecidableEq

/-- `database::Backup` (old revision): files keyed by inode, directories,
symlinks. -/
structure Backup where
  files : List (Nat × BackupFileMetadata)
  directories : List Path
  symlinks : List (Path × Path)
deriving DecidableEq

/-- `database::Database` (old revision). -/
structure Database where
  backups : List (String × Backup)
  data_blocks : List (Hash × DataBlockMetadata)
deriving DecidableEq

/-- `database::BackupFile`: the view of one prior file record joined with
its data block's mtime. -/
structure BackupFile where
  ino : Nat
  meta : BackupFileMetadata
  data_block_mtime : MTime
deriving DecidableEq

def BackupFile.hash (f : BackupFile) : Hash := f.meta.hash

/-- `database::BackupView`: a prior snapshot joined with the shared
data-block table. -/
structure BackupView where
  backup : Backup
  data_blocks : List (Hash × DataBlockMetadata)
deriving DecidableEq

/-- Failure modes of a backup run.  `panicked` models a Rust panic (the
`data_blocks` unwrap in `BackupView::get_file` and the commit `assert!`). -/
inductive BkErr where
  | loadFailed
  | walkFailed
  | specialFile (p : Path)
  | hashFailed (p : Path)
  | panicked
  | alreadyStored (h : Hash)
  | copyFailed (p : Path)
  | writeFailed
deriving DecidableEq

/-- `BackupView::get_file`: look up the inode; a found record whose hash
has no data-block entry panics (`unwrap_or_else(|| panic!(..))`). -/
def BackupView.get_file (v : BackupView) (ino : Nat) :
    Except BkErr (Option BackupFile) :=
  match assocGet v.backup.files ino with
  | none => .ok none
  | some meta =>
      match assocGet v.data_blocks meta.hash with
      | none => .error .panicked
      | some dbm => .ok (some ⟨ino, meta, dbm.mtime⟩)

/-- `database::BackupBuilder` (old revision): the snapshot being built and
the queued (source path, hash, mtime) ingestion list. -/
structure BackupBuilder where
  inner : Backup
  new_files : List (Path × Hash × MTime)
deriving DecidableEq

def BackupBuilder.new : BackupBuilder := ⟨⟨[], [], []⟩, []⟩

def BackupBuilder.insert_directory (bb : BackupBuilder) (p : Path) : BackupBuilder :=
  { bb with inner := { bb.inner with directories := bb.inner.directories ++ [p] } }

def BackupBuilder.insert_symlink (bb : BackupBuilder) (p target : Path) : BackupBuilder :=
  { bb with inner :=
      { bb.inner with symlinks := assocUpdate bb.inner.symlinks p target } }

def BackupBuilder.insert_new_file (bb : BackupBuilder) (source bkupPath : Path)
    (h : Hash) (ino : Nat) (mtime : MTime) : BackupBuilder :=
  { inner := { bb.inner with files := assocUpdate bb.inner.files ino ⟨bkupPath, h⟩ }
    new_files := bb.new_files ++ [(source, h, mtime)] }

def BackupBuilder.insert_unchanged_file (bb : BackupBuilder) (bkupPath : Path)
    (h : Hash) (ino : Nat) : BackupBuilder :=
  { bb with inner :=
      { bb.inner with files := assocUpdate bb.inner.files ino ⟨bkupPath, h⟩ } }

/-- `Database::get_backup`. -/
def Database.get_backup (db : Database) (name : String) : Option BackupView :=
  (assocGet db.backups name).map (fun b => ⟨b, db.data_blocks⟩)

/-- `Database::insert_backup_builder` (old revision, `src/database.rs`
lines 48-55): store the snapshot, then insert each queued hash's metadata
asserting the hash was absent — `assert!(prev.is_none())`. -/
def insertBlocksAsserting (blocks : List (Hash × DataBlockMetadata)) :
    List (Path × Hash × MTime) → Except BkErr (List (Hash × DataBlockMetadata))
  | [] => .ok blocks
  | (_, h, mtime) :: rest =>
      match assocGet blocks h with
      | some _ => .error .panicked
      | none => insertBlocksAsserting (assocUpdate blocks h ⟨mtime⟩) rest

def Database.insert_backup_builder (db : Database) (name : String)
    (bb : BackupBuilder) : Except BkErr Database :=
  match insertBlocksAsserting db.data_blocks bb.new_files with
  | .error e => .error e
  | .ok blocks =>
      .ok { backups := assocUpdate db.backups name bb.inner, data_blocks := blocks }

/-- The walked directory entries (`DirEntry::new`'s classification). -/
inductive DirEntry where
  | file (path : Path) (ino : Nat) (mtime : MTime)
  | directory (path : Path)
  | symlink (path : Path) (target : Path)
  | special (path : Path)
deriving DecidableEq

def DirEntry.path : DirEntry → Path
  | .file p _ _ => p
  | .directory p => p
  | .symlink p _ => p
  | .special p => p

/-- `DirEntry::path_relative_to` (`strip_prefix(bkup_root).unwrap()`). -/
def relTo (p root : Path) : Path := p.drop root.length

/-- `BackupState`. -/
structure BackupState where
  bkup_root : Path
  old : Option BackupView
  new : BackupBuilder
deriving DecidableEq

/-- `state.old.as_ref().and_then(|bkup| bkup.get_file(ino))`, with
`get_file`'s possible panic carried through. -/
def lookupOld (st : BackupState) (ino : Nat) : Except BkErr (Option BackupFile) :=
  match st.old with
  | none => .ok none
  | some v => v.get_file ino

/-- `backup_single_dir_entry`.  `hashFn` is the hashing oracle (`none` =
I/O failure reading the file); the returned path list records which files'
contents were read (hashed). -/
def backup_single_dir_entry (hashFn : Path → Option Hash) (st : BackupState)
    (de : DirEntry) : Except BkErr (BackupState × List Path) :=
  let bkup_path := relTo de.path st.bkup_root
  match de with
  | .file path ino mtime =>
      match lookupOld st ino with
      | .error e => .error e
      | .ok (some old_file) =>
          if mtime.leb old_file.data_block_mtime then
            .ok ({ st with
              new := st.new.insert_unchanged_file bkup_path old_file.hash ino }, [])
          else
            match hashFn path with
            | none => .error (.hashFailed path)
            | some h =>
                if old_file.hash = h then
                  .ok ({ st with
                    new := st.new.insert_unchanged_file bkup_path h ino }, [path])
                else
                  .ok ({ st with
                    new := st.new.insert_new_file path bkup_path h ino mtime }, [path])
      | .ok none =>
          match hashFn path with
          | none => .error (.hashFailed path)
          | some h =>
              .ok ({ st with
                new := st.new.insert_new_file path bkup_path h ino mtime }, [path])
  | .directory _ =>
      .ok ({ st with new := st.new.insert_directory bkup_path }, [])
  | .symlink _ target =>
      .ok ({ st with new := st.new.insert_symlink bkup_path target }, [])
  | .special path => .error (.specialFile path)

end SubBackup

namespace SubBackup

open Util

/-- On-disk state of a vault for the old revision: the parsed content of
the `database.ron` file (`none` = missing or unreadable) and the set of
hashes present in storage. -/
structure World where
  dbFile : Option Database
  storage : List Hash
deriving DecidableEq

/-- `storage::store_file`: bails when a file with this hash already exists
("It should be skipped!"), otherwise copies the source into the vault
(oracle `ingestOk` decides whether the copy I/O succeeds). -/
def store_file (ingestOk : Path → Bool) (w : World) (source : Path) (h : Hash) :
    Except BkErr World :=
  if h ∈ w.storage then .error (.alreadyStored h)
  else if ingestOk source then .ok { w with storage := w.storage ++ [h] }
  else .error (.copyFailed source)

/-- The scan loop of `backup`: process each walked entry in order
(`none` models a walkdir error surfaced for that entry). -/
def scanEntries (hashFn : Path → Option Hash) (st : BackupState) :
    List (Option DirEntry) → Except BkErr BackupState
  | [] => .ok st
  | none :: _ => .error .walkFailed
  | some de :: rest =>
      match backup_single_dir_entry hashFn st de with
      | .error e => .error e
      | .ok (st2, _) => scanEntries hashFn st2 rest

/-- The ingestion loop of `backup`, threading the on-disk world (an error
midway keeps whatever was already stored). -/
def ingestAll (ingestOk : Path → Bool) (w : World) :
    List (Path × Hash × MTime) → Except BkErr Unit × World
  | [] => (.ok (), w)
  | f :: rest =>
      match store_file ingestOk w f.1 f.2.1 with
      | .error e => (.error e, w)
      | .ok w2 => ingestAll ingestOk w2 rest

/-- `subcommands::backup::backup`: load the database, scan the walked
entries, ingest every queued file, commit the builder into the in-memory
database, and only then write the database file back.  `writeOk` is the
final write's I/O oracle; a failed write leaves the file truncated
(unreadable). -/
def backup (hashFn : Path → Option Hash) (ingestOk : Path → Bool) (writeOk : Bool)
    (name : String) (root : Path) (entries : List (Option DirEntry)) (w : World) :
    Except BkErr Unit × World :=
  match w.dbFile with
  | none => (.error .loadFailed, w)
  | some db =>
      match scanEntries hashFn ⟨root, db.get_backup name, BackupBuilder.new⟩ entries with
      | .error e => (.error e, w)
      | .ok st =>
          match ingestAll ingestOk w st.new.new_files with
          | (.error e, w2) => (.error e, w2)
          | (.ok _, w2) =>
              match db.insert_backup_builder name st.new with
              | .error e => (.error e, w2)
              | .ok db2 =>
                  if writeOk then (.ok (), { w2 with dbFile := some db2 })
                  else (.error .writeFailed, { w2 with dbFile := none })

/-- Generic replace-or-append update then lookup at the same key. -/
theorem assocGet_update_self {K V : Type} [DecidableEq K] (l : List (K × V))
    (k : K) (v : V) : assocGet (assocUpdate l k v) k = some v := by
  rw [assocUpdate]
  cases hf : l.find? (fun e => e.1 = k) with
  | some e =>
      rw [if_pos (by rfl)]
      rw [assocGet]
      have hr := VaultDb.find?_replace_self Prod.fst ((k, v) : K × V) l e hf
      rw [hr]
      rfl
  | none =>
      rw [if_neg (by simp)]
      rw [assocGet, List.find?_append, hf]
      simp

/-- Generic replace-or-append update then lookup at another key. -/
theorem assocGet_update_other {K V : Type} [DecidableEq K] (l : List (K × V))
    (k k2 : K) (v : V) (hk : k2 ≠ k) :
    assocGet (assocUpdate l k v) k2 = assocGet l k2 := by
  rw [assocUpdate]
  cases hf : l.find? (fun e => e.1 = k) with
  | some e =>
      rw [if_pos (by rfl)]
      rw [assocGet, assocGet]
      have hr := VaultDb.find?_replace_other Prod.fst ((k, v) : K × V) hk l
      rw [hr]
  | none =>
      rw [if_neg (by simp)]
      rw [assocGet, assocGet, List.find?_append]
      have hone : List.find? (fun e => e.1 = k2) [(k, v)] = none := by
        simp [Ne.symm hk]
      rw [hone, Option.or_none]

end SubBackup

open SubBackup Util in
/-- C1: per-file change detection of `backup_single_dir_entry`: with a
prior record for the inode and current mtime ≤ the recorded mtime, the
prior hash is reused, the file is recorded unchanged, nothing is read and
nothing queued; with a prior record and greater mtime the file is hashed
and recorded unchanged exactly when the new hash equals the prior one,
otherwise queued as new content; with no prior record the file is hashed
and queued as new regardless of mtime. -/
theorem backup_change_detection (hashFn : Path → Option Hash) (st : BackupState)
    (path : Path) (ino : Nat) (mtime : MTime) :
    (∀ of, lookupOld st ino = .ok (some of) →
      mtime.leb of.data_block_mtime = true →
      ∃ st2, backup_single_dir_entry hashFn st (.file path ino mtime)
          = .ok (st2, []) ∧
        assocGet st2.new.inner.files ino = some ⟨relTo path st.bkup_root, of.hash⟩ ∧
        st2.new.new_files = st.new.new_files) ∧
    (∀ of h, lookupOld st ino = .ok (some of) →
      mtime.leb of.data_block_mtime = false → hashFn path = some h →
      (of.hash = h →
        ∃ st2, backup_single_dir_entry hashFn st (.file path ino mtime)
            = .ok (st2, [path]) ∧
          assocGet st2.new.inner.files ino = some ⟨relTo path st.bkup_root, h⟩ ∧
          st2.new.new_files = st.new.new_files) ∧
      (of.hash ≠ h →
        ∃ st2, backup_single_dir_entry hashFn st (.file path ino mtime)
            = .ok (st2, [path]) ∧
          assocGet st2.new.inner.files ino = some ⟨relTo path st.bkup_root, h⟩ ∧
          st2.new.new_files = st.new.new_files ++ [(path, h, mtime)])) ∧
    (∀ h, lookupOld st ino = .ok none → hashFn path = some h →
      ∃ st2, backup_single_dir_entry hashFn st (.file path ino mtime)
          = .ok (st2, [path]) ∧
        assocGet st2.new.inner.files ino = some ⟨relTo path st.bkup_root, h⟩ ∧
        st2.new.new_files = st.new.new_files ++ [(path, h, mtime)]) := by
  refine ⟨?_, ?_, ?_⟩
  · intro of hmo hle
    refine ⟨{ st with
      new := st.new.insert_unchanged_file (relTo path st.bkup_root) of.hash ino },
      ?_, ?_, rfl⟩
    · simp [backup_single_dir_entry, DirEntry.path, hmo, hle]
    · simp only [BackupBuilder.insert_unchanged_file]
      exact assocGet_update_self _ _ _
  · intro of h hmo hgt hh
    constructor
    · intro heq
      refine ⟨{ st with
        new := st.new.insert_unchanged_file (relTo path st.bkup_root) h ino },
        ?_, ?_, rfl⟩
      · simp [backup_single_dir_entry, DirEntry.path, hmo, hgt, hh, heq]
      · simp only [BackupBuilder.insert_unchanged_file]
        exact assocGet_update_self _ _ _
    · intro hne
      refine ⟨{ st with
        new := st.new.insert_new_file path (relTo path st.bkup_root) h ino mtime },
        ?_, ?_, rfl⟩
      · simp [backup_single_dir_entry, DirEntry.path, hmo, hgt, hh, hne]
      · simp only [BackupBuilder.insert_new_file]
        exact assocGet_update_self _ _ _
  · intro h hmo hh
    refine ⟨{ st with
      new := st.new.insert_new_file path (relTo path st.bkup_root) h ino mtime },
      ?_, ?_, rfl⟩
    · simp [backup_single_dir_entry, DirEntry.path, hmo, hh]
    · simp only [BackupBuilder.insert_new_file]
      exact assocGet_update_self _ _ _

/-- Prior snapshot for the C1 witness: inode 1 backed up as `f1` with hash
`[5]`, its data block recorded at mtime 10s. -/
def oldViewW : SubBackup.BackupView :=
  { backup := { files := [(1, ⟨["f1"], ⟨[5]⟩⟩)], directories := [], symlinks := [] }
    data_blocks := [(⟨[5]⟩, ⟨⟨10, 0⟩⟩)] }

def stC1W : SubBackup.BackupState := ⟨["r"], some oldViewW, SubBackup.BackupBuilder.new⟩

/-- Hashing oracle for the C1 witness: `r/f1` hashes to `[5]`, anything
else to `[9]`. -/
def hashFnC1W : Util.Path → Option Util.Hash :=
  fun p => if p = ["r", "f1"] then some ⟨[5]⟩ else some ⟨[9]⟩

open SubBackup Util in
/-- Witness for C1: at mtime 9s ≤ 10s the file is reused without reading;
a new inode 2 is hashed and queued regardless. -/
theorem backup_change_detection_witness :
    (∃ st2, backup_single_dir_entry hashFnC1W stC1W (.file ["r", "f1"] 1 ⟨9, 0⟩)
        = .ok (st2, []) ∧
      assocGet st2.new.inner.files 1 = some ⟨["f1"], ⟨[5]⟩⟩ ∧
      st2.new.new_files = stC1W.new.new_files) ∧
    (∃ st2, backup_single_dir_entry hashFnC1W stC1W (.file ["r", "f2"] 2 ⟨9, 0⟩)
        = .ok (st2, [["r", "f2"]]) ∧
      assocGet st2.new.inner.files 2 = some ⟨["f2"], ⟨[9]⟩⟩ ∧
      st2.new.new_files = stC1W.new.new_files ++ [(["r", "f2"], ⟨[9]⟩, ⟨9, 0⟩)]) :=
  ⟨(backup_change_detection hashFnC1W stC1W ["r", "f1"] 1 ⟨9, 0⟩).1
     ⟨1, ⟨["f1"], ⟨[5]⟩⟩, ⟨10, 0⟩⟩ (by rfl) (by decide),
   (backup_change_detection hashFnC1W stC1W ["r", "f2"] 2 ⟨9, 0⟩).2.2
     ⟨[9]⟩ (by rfl) (by rfl)⟩

namespace SubBackup

open Util

/-- Ingestion touches only storage, never the on-disk database file. -/
theorem ingestAll_dbFile (ingestOk : Path → Bool) :
    ∀ (l : List (Path × Hash × MTime)) (w : World),
      ((ingestAll ingestOk w l).2).dbFile = w.dbFile := by
  intro l
  induction l with
  | nil => intro w; rfl
  | cons x rest ih =>
      intro w
      rw [ingestAll]
      cases hs : store_file ingestOk w x.1 x.2.1 with
      | error e => rfl
      | ok w2 =>
          have hw2 : w2.dbFile = w.dbFile := by
            rw [store_file] at hs
            by_cases hmem : x.2.1 ∈ w.storage
            · rw [if_pos hmem] at hs
              exact absurd hs (by simp)
            · rw [if_neg hmem] at hs
              by_cases hio : ingestOk x.1 = true
              · rw [if_pos hio, Except.ok.injEq] at hs
                rw [← hs]
              · rw [if_neg hio] at hs
                exact absurd hs (by simp)
          exact (ih w2).trans hw2

/-- A walked special entry makes the scan fail (at it, or at an earlier
failing entry). -/
theorem scanEntries_special (hashFn : Path → Option Hash) :
    ∀ (entries : List (Option DirEntry)) (st : BackupState) (p : Path),
      some (DirEntry.special p) ∈ entries →
      ∃ e, scanEntries hashFn st entries = .error e := by
  intro entries
  induction entries with
  | nil => intro st p hp; simp at hp
  | cons x rest ih =>
      intro st p hp
      cases x with
      | none => exact ⟨.walkFailed, rfl⟩
      | some de =>
          rcases List.mem_cons.mp hp with hx | hx
          · have hde : DirEntry.special p = de := by injection hx
            subst hde
            exact ⟨.specialFile p, rfl⟩
          · cases hb : backup_single_dir_entry hashFn st de with
            | error e => exact ⟨e, by rw [scanEntries, hb]⟩
            | ok r =>
                obtain ⟨st2, reads⟩ := r
                obtain ⟨e, he⟩ := ih st2 p hx
                refine ⟨e, ?_⟩
                rw [scanEntries, hb]
                exact he

end SubBackup

open SubBackup Util in
/-- C2: the backup run writes the database file only as its final step,
after the walk and all ingestion: any failing run (with the final write
itself not failing) leaves the on-disk database exactly as it was; and a
walk containing a special file always fails, leaving the database
unchanged and nothing ingested. -/
theorem backup_commit_atomicity (hashFn : Path → Option Hash)
    (ingestOk : Path → Bool) (writeOk : Bool) (name : String) (root : Path)
    (entries : List (Option DirEntry)) (w : World) :
    (writeOk = true → ∀ e w2,
      backup hashFn ingestOk writeOk name root entries w = (.error e, w2) →
      w2.dbFile = w.dbFile) ∧
    (∀ p, some (DirEntry.special p) ∈ entries →
      ∃ e w2, backup hashFn ingestOk writeOk name root entries w = (.error e, w2) ∧
        w2.dbFile = w.dbFile ∧ w2.storage = w.storage) := by
  constructor
  · intro hw e w2 hb
    subst hw
    cases hdb : w.dbFile with
    | none =>
        simp only [backup, hdb, Prod.mk.injEq] at hb
        rw [← hb.2]
        exact hdb
    | some db =>
        simp only [backup, hdb] at hb
        cases hscan : scanEntries hashFn ⟨root, db.get_backup name,
            BackupBuilder.new⟩ entries with
        | error e2 =>
            simp only [hscan, Prod.mk.injEq] at hb
            rw [← hb.2]
            exact hdb
        | ok st =>
            simp only [hscan] at hb
            cases hing : ingestAll ingestOk w st.new.new_files with
            | mk r w3 =>
                have hdbf : w3.dbFile = w.dbFile := by
                  have hi := ingestAll_dbFile ingestOk st.new.new_files w
                  rw [hing] at hi
                  exact hi
                simp only [hing] at hb
                cases r with
                | error e2 =>
                    simp only [Prod.mk.injEq] at hb
                    rw [← hb.2]
                    exact hdbf.trans hdb
                | ok u =>
                    cases hins : db.insert_backup_builder name st.new with
                    | error e2 =>
                        simp only [hins, Prod.mk.injEq] at hb
                        rw [← hb.2]
                        exact hdbf.trans hdb
                    | ok db2 =>
                        simp only [hins] at hb
                        rw [if_pos trivial] at hb
                        simp at hb
  · intro p hp
    cases hdb : w.dbFile with
    | none =>
        refine ⟨.loadFailed, w, ?_, hdb, rfl⟩
        simp only [backup, hdb]
    | some db =>
        obtain ⟨e, hscan⟩ := scanEntries_special hashFn entries
          ⟨root, db.get_backup name, BackupBuilder.new⟩ p hp
        refine ⟨e, w, ?_, hdb, rfl⟩
        simp only [backup, hdb, hscan]

def dbC2W : SubBackup.Database := ⟨[], []⟩

def wC2W : SubBackup.World := ⟨some dbC2W, []⟩

/-- Walked entries for the C2 witness: a directory, then a socket. -/
def entriesC2W : List (Option SubBackup.DirEntry) :=
  [some (.directory ["r", "d"]), some (.special ["r", "sock"])]

open SubBackup Util in
/-- Witness for C2: a scan hitting a special file fails and leaves the
database file and the storage untouched. -/
theorem backup_commit_atomicity_witness :
    ∃ e w2, backup (fun _ => some ⟨[1]⟩) (fun _ => true) true "s" ["r"]
        entriesC2W wC2W = (.error e, w2) ∧
      w2.dbFile = wC2W.dbFile ∧ w2.storage = wC2W.storage :=
  (backup_commit_atomicity (fun _ => some ⟨[1]⟩) (fun _ => true) true "s" ["r"]
    entriesC2W wC2W).2 ["r", "sock"] (by decide)

namespace SubBackup

open Util

/-- The commit loop of the old revision panics whenever a queued hash is
already in the table or is queued twice. -/
theorem insertBlocksAsserting_panics :
    ∀ (l : List (Path × Hash × MTime)) (blocks : List (Hash × DataBlockMetadata)),
      ((∃ f ∈ l, assocGet blocks f.2.1 ≠ none) ∨
        ¬ (l.map (fun f => f.2.1)).Nodup) →
      exceptIsErr (insertBlocksAsserting blocks l) = true := by
  intro l
  induction l with
  | nil =>
      intro blocks h
      rcases h with ⟨f, hf, _⟩ | hnd
      · simp at hf
      · simp at hnd
  | cons x rest ih =>
      intro blocks h
      obtain ⟨src, hh, mt⟩ := x
      rw [insertBlocksAsserting]
      cases hlk : assocGet blocks hh with
      | some d => rfl
      | none =>
          refine ih (assocUpdate blocks hh ⟨mt⟩) ?_
          rcases h with ⟨f, hf, hne⟩ | hnd
          · rcases List.mem_cons.mp hf with rfl | hf2
            · exact absurd hlk hne
            · left
              refine ⟨f, hf2, ?_⟩
              by_cases hfh : f.2.1 = hh
              · rw [hfh, assocGet_update_self]
                simp
              · rw [assocGet_update_other _ _ _ _ hfh]
                exact hne
          · rw [List.map_cons] at hnd
            by_cases hmem : hh ∈ rest.map (fun f => f.2.1)
            · left
              obtain ⟨f, hf, hfh⟩ := List.mem_map.mp hmem
              refine ⟨f, hf, ?_⟩
              rw [hfh, assocGet_update_self]
              simp
            · right
              intro hnd2
              exact hnd (List.nodup_cons.mpr ⟨hmem, hnd2⟩)

end SubBackup

open SubBackup Util in
/-- C10: the old revision's commit (`src/database.rs` lines 48-55) asserts
each queued hash is absent from the shared table: a builder queuing the
same content hash twice (two identical-content files in one run), or
queuing a hash recorded by an earlier commit, makes the commit panic
instead of deduplicating. -/
theorem insert_backup_builder_asserts (db : Database) (name : String)
    (bb : BackupBuilder) :
    ((∃ f ∈ bb.new_files, assocGet db.data_blocks f.2.1 ≠ none) ∨
      ¬ (bb.new_files.map (fun f => f.2.1)).Nodup) →
    exceptIsErr (db.insert_backup_builder name bb) = true := by
  intro h
  have hl := insertBlocksAsserting_panics bb.new_files db.data_blocks h
  rw [Database.insert_backup_builder]
  cases hm : insertBlocksAsserting db.data_blocks bb.new_files with
  | error e => rfl
  | ok blocks =>
      rw [hm] at hl
      simp [exceptIsErr] at hl

/-- The builder a scan of two identical-content files produces (both hash
to `[7]`): both are queued as new files with the same hash. -/
def bbDupW : SubBackup.BackupBuilder :=
  ⟨⟨[(1, ⟨["a"], ⟨[7]⟩⟩), (2, ⟨["b"], ⟨[7]⟩⟩)], [], []⟩,
    [(["r", "a"], ⟨[7]⟩, ⟨1, 0⟩), (["r", "b"], ⟨[7]⟩, ⟨1, 0⟩)]⟩

open SubBackup Util in
/-- Witness for C10: scanning two distinct files with identical bytes (no
prior snapshot) produces `bbDupW`, whose commit panics. -/
theorem insert_backup_builder_asserts_witness :
    scanEntries (fun _p => some ⟨[7]⟩) ⟨["r"], none, BackupBuilder.new⟩
        [some (.file ["r", "a"] 1 ⟨1, 0⟩), some (.file ["r", "b"] 2 ⟨1, 0⟩)]
      = .ok ⟨["r"], none, bbDupW⟩ ∧
    exceptIsErr (Database.insert_backup_builder ⟨[], []⟩ "s" bbDupW) = true :=
  ⟨by rfl, insert_backup_builder_asserts ⟨[], []⟩ "s" bbDupW (Or.inr (by decide))⟩

namespace VaultLock

/-!
Embedding of `src/vault/lock.rs` (`DirectoryLock`) and the open/close
lifecycle of `src/vault.rs` (`Vault::open_dir` and `impl Drop for Vault`).
The world records whether the lock file exists in the vault directory,
whether `Database::load` would succeed, and how many times `unlock` (the
lock-file deletion) has run.  `DirectoryLock` itself has no `Drop` impl;
only a fully constructed `Vault` deletes the lock file when dropped.
-/

structure World where
  lockFile : Bool
  dbOk : Bool
  unlockCalls : Nat
deriving DecidableEq

/-- `DirectoryLock::blocking_lock` from a caller that can proceed: when the
lock file is absent, `create_new` makes it and the call returns; when it is
present the call blocks on inotify until deletion (`none` — it does not
return within this single-process lifecycle). -/
def blockingLock (w : World) : Option World :=
  if w.lockFile then none else some { w with lockFile := true }

/-- `DirectoryLock::unlock`: delete the lock file. -/
def unlock (w : World) : World :=
  { w with lockFile := false, unlockCalls := w.unlockCalls + 1 }

/-- `Vault::open_dir`: lock, then load the database.  On a load failure the
error propagates with `?` — the `DirectoryLock` value is discarded without
any unlock (no `Drop` runs, the `Vault` was never constructed). -/
def openDir (w : World) : Option (Except Unit Unit × World) :=
  (blockingLock w).map (fun w1 =>
    if w1.dbOk then (.ok (), w1) else (.error (), w1))

/-- The whole open/operate/close lifecycle: when `open_dir` succeeded the
`Vault` is eventually dropped, whose `Drop` impl calls `unlock` once; when
it failed nothing further happens.  Returns whether the open succeeded. -/
def lifecycle (w : World) : Option (Bool × World) :=
  (openDir w).map (fun r =>
    match r.1 with
    | .ok _ => (true, unlock r.2)
    | .error _ => (false, r.2))

end VaultLock

open VaultLock in
/-- C6 divergence, evaluated: starting unlocked with a database that fails
to load, the lifecycle fails with the lock file STILL on disk and zero
unlock calls — the lock leaks, because `DirectoryLock` has no `Drop` and
`Vault::open_dir` propagates the load error after locking.  On the success
path unlock runs exactly once and the lock file is gone. -/
theorem vault_open_dir_load_failure_leaks_lock :
    lifecycle ⟨false, false, 0⟩ = some (false, ⟨true, false, 0⟩) ∧
    lifecycle ⟨false, true, 0⟩ = some (true, ⟨false, true, 1⟩) :=
  ⟨rfl, rfl⟩

namespace Mount

/-!
Embedding of `src/cmd/mount.rs` (`mount`): the sequence of filesystem
actions the happy path performs.  The `absolutize`/`pathdiff` arithmetic of
the stored-file loop is abstracted as oracles; the directory loop and the
backed-up-symlink loop involve no path arithmetic and are embedded
exactly.  `std::os::unix::fs::symlink(original, link)` creates a symlink
AT `link` whose target is `original` — the `FsAction.symlink` constructor
keeps that argument order. -/

open Util

/-- One stored-file record of the mounted snapshot. -/
structure FileEntry where
  path : Path
  hash : Hash
deriving DecidableEq

/-- The snapshot as `mount` consumes it. -/
structure Snapshot where
  directories : List Path
  files : List FileEntry
  symlinks : List (Path × Path)
deriving DecidableEq

/-- Filesystem actions: `create_dir_all`, and `symlink original link`
(creates the link at `link`, pointing at `original`). -/
inductive FsAction where
  | mkdirAll (p : Path)
  | symlink (original : Path) (link : Path)
deriving DecidableEq

/-- `mount`: recreate the directory structure under the mount point;
symlink every stored file into place (`symlink(&file_source, &file_dest)`);
then create the backed-up symlinks — the code calls
`symlink(&link_dest, link_target)`, passing the mount-point path as the
ORIGINAL and the recorded target as the LINK location. -/
def mount (absolutizeFn : Path → Path) (diffFn : Path → Path → Path)
    (vaultDir mountPoint : Path) (snap : Snapshot) : List FsAction :=
  (snap.directories.map (fun d => FsAction.mkdirAll (mountPoint ++ d))) ++
  (snap.files.map (fun f =>
    let fileDest := absolutizeFn (mountPoint ++ f.path)
    let fileSource := diffFn (absolutizeFn (VaultStorage.pathOf vaultDir f.hash))
      fileDest.dropLast
    FsAction.symlink fileSource fileDest)) ++
  (snap.symlinks.map (fun e => FsAction.symlink (mountPoint ++ e.1) e.2))

end Mount

/-- The C9 failing input: a snapshot with one directory and one backed-up
symlink `a/link -> file1`, mounted at `mnt`. -/
def snapMountW : Mount.Snapshot :=
  { directories := [["a"]]
    files := []
    symlinks := [(["a", "link"], ["file1"])] }

open Mount in
/-- C9 divergence, evaluated: mounting `snapMountW` creates the directory,
but its only symlink action is `symlink original:=mnt/a/link link:=file1` —
a link created AT the recorded target path `file1` (outside the mount
point) pointing back at `mnt/a/link` — instead of a link at `mnt/a/link`
with target `file1`: the `symlink` arguments in `cmd/mount.rs` are
swapped. -/
theorem mount_backed_up_symlink_swapped :
    mount id (fun p _ => p) ["v"] ["mnt"] snapMountW =
      [FsAction.mkdirAll ["mnt", "a"],
        FsAction.symlink ["mnt", "a", "link"] ["file1"]] := by
  rfl
